import Mathlib

set_option maxHeartbeats 1000000
set_option maxRecDepth 10000

/- Verification of the hierarchical chunking and contextual-prefixing pipeline
of dfir_assistant (src/dfir_assistant/ingestion/chunker.py and
src/dfir_assistant/ingestion/preprocessor.py).

Modelling conventions.  Text is `List Char` (abbreviated `Str`); Python string
primitives (find, rfind, replace, split, strip, lower, slicing) are modelled by
the executable functions below with Python's semantics, including negative
slice indices where a Python int position can go negative (modelled as `Int`).
Regular-expression scans of the source are modelled by equivalent explicit
scanning functions; the derivation from the concrete regex is documented at
each one.  Python dicts appear only with insertion-order iteration and are
modelled as association lists.  The float quality score is modelled in exact
rational arithmetic.  The chunking loops of the source can fail to terminate,
so the corresponding functions take a fuel argument and return `none` when the
fuel is exhausted; a `some` result is a faithful trace of a terminating run. -/

abbrev Str := List Char

def strOf (s : String) : Str := s.data

/-- Python `text.find(pat)` restricted to scanning from the front: index of the
first occurrence of `pat`, as an `Option`. -/
def findSubAux (pat : Str) : Str → Nat → Option Nat
  | [], i => if pat.isEmpty then some i else none
  | c :: rest, i =>
    if pat.isPrefixOf (c :: rest) then some i else findSubAux pat rest (i + 1)

def findSub (t pat : Str) : Option Nat := findSubAux pat t 0

/-- Python `pat in text`. -/
def containsSub (t pat : Str) : Bool := (findSub t pat).isSome

/-- Python `text.count(pat)`: non-overlapping occurrences, scanned left to
right (used only with non-empty `pat`).  The `skip` counter replays the jump
over a matched occurrence one character at a time, keeping the recursion
structural and hence kernel-computable. -/
def countSubAux (pat : Str) : Str → Nat → Nat
  | [], _ => 0
  | _ :: rest, skip + 1 => countSubAux pat rest skip
  | c :: rest, 0 =>
    if pat.isPrefixOf (c :: rest) then countSubAux pat rest (pat.length - 1) + 1
    else countSubAux pat rest 0

def countSub (t pat : Str) : Nat := countSubAux pat t 0

/-- Python `text.replace(old, new, 1)`: replace the first occurrence. -/
def replaceFirst (t old new : Str) : Str :=
  match findSub t old with
  | none => t
  | some i => List.take i t ++ new ++ List.drop (i + old.length) t

/-- Python `text.replace(old, new)`: replace every non-overlapping occurrence,
left to right, without rescanning the replacement (used only with non-empty
`old`); the `skip` counter replays the jump over a matched occurrence. -/
def replaceAllAux (old new : Str) : Str → Nat → Str
  | [], _ => []
  | _ :: rest, skip + 1 => replaceAllAux old new rest skip
  | c :: rest, 0 =>
    if old.isPrefixOf (c :: rest) then new ++ replaceAllAux old new rest (old.length - 1)
    else c :: replaceAllAux old new rest 0

def replaceAll (t old new : Str) : Str := replaceAllAux old new t 0

/-- Python `text.split(sep)` (used only with non-empty `sep`); `acc` holds the
current piece reversed, and the `skip` counter replays the jump over a matched
separator. -/
def pySplitAux (sep : Str) : Str → Str → Nat → List Str
  | acc, [], _ => [acc.reverse]
  | acc, _ :: rest, skip + 1 => pySplitAux sep acc rest skip
  | acc, c :: rest, 0 =>
    if sep.isPrefixOf (c :: rest) then
      acc.reverse :: pySplitAux sep [] rest (sep.length - 1)
    else
      pySplitAux sep (c :: acc) rest 0

def pySplit (sep t : Str) : List Str := pySplitAux sep [] t 0

/-- The whitespace class of Python's `str.strip` / `\s`, for ASCII text. -/
def isPyWs (c : Char) : Bool :=
  c == ' ' || c == '\t' || c == '\n' || c == '\r' || c == '\x0b' || c == '\x0c'

def lstrip (t : Str) : Str := t.dropWhile isPyWs

def rstrip (t : Str) : Str := (t.reverse.dropWhile isPyWs).reverse

/-- Python `text.strip()`. -/
def pyStrip (t : Str) : Str := rstrip (lstrip t)

/-- Python `text.lower()` (ASCII). -/
def pyLower (t : Str) : Str := t.map Char.toLower

/-- Clamp a Python slice index to an actual position in a string of length
`len`: negative indices count from the end, clamped at 0; positive ones are
clamped at `len`. -/
def sliceIdx (len : Nat) (i : Int) : Nat :=
  if i < 0 then len - (-i).toNat else min i.toNat len

/-- Python `text[a:b]`. -/
def pySlice (t : Str) (a b : Int) : Str :=
  (List.take (sliceIdx t.length b) t).drop (sliceIdx t.length a)

/-- Python `text.rfind(c, a, b)` for a single-character needle: the largest
index of `c` within the slice bounds, or -1. -/
def pyRfindChar (t : Str) (c : Char) (a b : Int) : Int :=
  let lo := sliceIdx t.length a
  let hi := sliceIdx t.length b
  match ((List.range t.length).filter
      (fun i => decide (lo ≤ i) && decide (i < hi) && (t.get? i == some c))).getLast? with
  | some i => (i : Int)
  | none => -1

/-- Python `text.find(pat)`: first index or -1. -/
def pyFind (t pat : Str) : Int :=
  match findSub t pat with
  | some i => (i : Int)
  | none => -1

/-- Decimal rendering of a natural number, Python `str(n)` / `f-string`.  The
fuel `n + 1` strictly exceeds the recursion depth (the argument shrinks by a
factor of ten each step), so the fuel never runs out. -/
def toDecAux : Nat → Nat → Str
  | 0, _ => []
  | fuel + 1, n =>
    if n < 10 then [Nat.digitChar n]
    else toDecAux fuel (n / 10) ++ [Nat.digitChar (n % 10)]

def toDec (n : Nat) : Str := toDecAux (n + 1) n

/-- Python `f-string` `:04d`: zero-pad the decimal rendering to width 4. -/
def pad4 (n : Nat) : Str :=
  let s := toDec n
  if s.length < 4 then List.replicate (4 - s.length) '0' ++ s else s

/- ----------------------------------------------------------------------
Data model (ingestion/models.py).  Python `str | None` fields are `Option Str`;
a present empty string (falsy in Python but distinct from `None`) is
`some []`.  The field `section` is spelled `section_` because `section` is a
Lean keyword. -/

structure Document where
  title : Str
  file_path : Str
  total_pages : Nat := 0
  chapters : List Str := []
deriving Repr, DecidableEq

structure ExtractedContent where
  document : Document
  markdown_content : Str
  page_markers : List (Nat × Nat) := []
deriving Repr, DecidableEq

structure Chunk where
  chunk_id : Str
  content : Str
  contextualPrefix : Str := []
  source_type : Str := strOf "book"
  book_title : Str
  chapter : Option Str := none
  section_ : Option Str := none
  page : Option Nat := none
  chunk_index : Nat := 0
deriving Repr, DecidableEq

/-- chunker.py `ChunkingConfig`: a plain dataclass.  Note that its constructor
performs no validation whatsoever; any field values are accepted. -/
structure ChunkingConfig where
  chunk_size : Nat := 512
  chunk_overlap : Nat := 100
  min_chunk_size : Nat := 100
deriving Repr, DecidableEq

def ChunkingConfig.chunk_size_chars (c : ChunkingConfig) : Nat := c.chunk_size * 4

def ChunkingConfig.chunk_overlap_chars (c : ChunkingConfig) : Nat := c.chunk_overlap * 4

def ChunkingConfig.min_chunk_size_chars (c : ChunkingConfig) : Nat := c.min_chunk_size * 4

/-- chunker.py `HierarchicalChunker.__init__`: stores `config or
ChunkingConfig()`; no validation of size/overlap happens anywhere. -/
def chunker_init (config : Option ChunkingConfig) : ChunkingConfig :=
  config.getD {}

structure ChunkMetadata where
  chapter : Option Str := none
  section_ : Option Str := none
  subsection : Option Str := none
  has_code : Bool := false
  has_table : Bool := false
  has_command : Bool := false
deriving Repr, DecidableEq

structure ChunkQualityMetrics where
  is_complete_sentence : Bool := true
  has_split_code_block : Bool := false
  has_split_table : Bool := false
  has_garbage_chars : Bool := false
  quality_score : ℚ := 1
  issues : List Str := []
deriving Repr, DecidableEq

/- ----------------------------------------------------------------------
Preprocessor (ingestion/preprocessor.py). -/

structure ContextualConfig where
  include_source : Bool := true
  include_chapter : Bool := true
  include_section : Bool := true
  include_page : Bool := false
  separator : Str := strOf "---"
  max_context_length : Nat := 200
deriving Repr, DecidableEq

/-- Python truthiness of a `str | None` value: `None` and `""` are falsy. -/
def isTruthy : Option Str → Bool
  | none => false
  | some s => !s.isEmpty

/-- Python truthiness of an `int | None` value: `None` and `0` are falsy. -/
def pageTruthy : Option Nat → Bool
  | none => false
  | some p => p != 0

/-- preprocessor.py `ContextualPreprocessor._get_source_label`. -/
def get_source_label (source_type : Str) : Str :=
  if source_type = strOf "book" then strOf "Source"
  else if source_type = strOf "doc" then strOf "Document"
  else if source_type = strOf "org" then strOf "Organization Knowledge"
  else if source_type = strOf "procedure" then strOf "Procedure"
  else strOf "Source"

/-- preprocessor.py `ContextualPreprocessor.build_contextual_prefix`.  The
truncation slice `prefix[:max_context_length - 3]` is computed with Python
subtraction, hence the `Int` slice index. -/
def buildContextualPrefix (cfg : ContextualConfig) (source chapter sectionLbl : Option Str)
    (page : Option Nat) (source_type : Str) : Str :=
  let parts : List Str :=
    (if cfg.include_source && isTruthy source then
        [get_source_label source_type ++ strOf ": " ++ source.getD []] else [])
    ++ (if cfg.include_chapter && isTruthy chapter then
        [strOf "Chapter: " ++ chapter.getD []] else [])
    ++ (if cfg.include_section && isTruthy sectionLbl then
        [strOf "Section: " ++ sectionLbl.getD []] else [])
    ++ (if cfg.include_page && pageTruthy page then
        [strOf "Page: " ++ toDec (page.getD 0)] else [])
  if parts.isEmpty then []
  else
    let pfx := List.intercalate (strOf "\n") parts
    let pfx2 :=
      if pfx.length > cfg.max_context_length then
        List.take (sliceIdx pfx.length ((cfg.max_context_length : Int) - 3)) pfx ++ strOf "..."
      else pfx
    pfx2 ++ strOf "\n" ++ cfg.separator ++ strOf "\n"

/-- preprocessor.py `ContextualPreprocessor.preprocess_chunk`: return the chunk
unchanged when it already has a (non-empty) prefix, otherwise construct a new
`Chunk` with the prefix computed from the chunk's own fields. -/
def preprocess_chunk (cfg : ContextualConfig) (c : Chunk) : Chunk :=
  if c.contextualPrefix.isEmpty then
    Chunk.mk c.chunk_id c.content
      (buildContextualPrefix cfg (some c.book_title) c.chapter c.section_ c.page c.source_type)
      c.source_type c.book_title c.chapter c.section_ c.page c.chunk_index
  else c

/-- chunker.py `HierarchicalChunker._build_contextual_prefix`. -/
def chunkerBuildContextualPrefix (book_title : Str) (chapter sectionLbl : Option Str) : Str :=
  let parts := [strOf "Source: " ++ book_title]
    ++ (if isTruthy chapter then [strOf "Chapter: " ++ chapter.getD []] else [])
    ++ (if isTruthy sectionLbl then [strOf "Section: " ++ sectionLbl.getD []] else [])
    ++ [strOf "---"]
  List.intercalate (strOf "\n") parts ++ strOf "\n"

def cfgAllFlags : ContextualConfig :=
  { include_source := true, include_chapter := true, include_section := true,
    include_page := true, separator := strOf "---", max_context_length := 200 }

/-- Claim C5: the contextual prefix builder, called with source "Windows
Internals", chapter "Memory Management", section "VAD Trees", source type
"book" and every include flag enabled, returns exactly
"Source: Windows Internals\nChapter: Memory Management\nSection: VAD
Trees\n---\n"; the chunker-side builder agrees on the same inputs. -/
theorem contextual_header_exact :
    buildContextualPrefix cfgAllFlags (some (strOf "Windows Internals"))
        (some (strOf "Memory Management")) (some (strOf "VAD Trees")) none (strOf "book")
      = strOf "Source: Windows Internals\nChapter: Memory Management\nSection: VAD Trees\n---\n"
    ∧ chunkerBuildContextualPrefix (strOf "Windows Internals")
        (some (strOf "Memory Management")) (some (strOf "VAD Trees"))
      = strOf "Source: Windows Internals\nChapter: Memory Management\nSection: VAD Trees\n---\n" := by
  constructor
  · decide
  · decide

/- ----------------------------------------------------------------------
Protector / Restorer (chunker.py `_protect_content` / `_restore_content`). -/

/-- A successful `findSub` leaves room for the pattern. -/
theorem findSubAux_le {pat : Str} :
    ∀ (t : Str) (i j : Nat), findSubAux pat t i = some j →
      i ≤ j ∧ j + pat.length ≤ i + t.length := by
  intro t
  induction t with
  | nil =>
    intro i j h
    simp only [findSubAux] at h
    by_cases hp : pat.isEmpty
    · simp only [hp, if_pos] at h
      cases h
      simp [List.isEmpty_iff.mp hp]
    · simp [hp] at h
  | cons c rest ih =>
    intro i j h
    simp only [findSubAux] at h
    by_cases hp : pat.isPrefixOf (c :: rest) = true
    · rw [if_pos hp] at h
      cases h
      have hlen := List.IsPrefix.length_le (List.isPrefixOf_iff_prefix.mp hp)
      simp only [List.length_cons] at hlen ⊢
      omega
    · rw [if_neg hp] at h
      have := ih (i + 1) j h
      simp only [List.length_cons]
      omega

theorem findSub_le {t pat : Str} {j : Nat} (h : findSub t pat = some j) :
    j + pat.length ≤ t.length := by
  have := (findSubAux_le t 0 j h).2
  omega

/-- chunker.py `CODE_BLOCK_PATTERN.finditer`: the regex is the non-greedy
(triple backtick)[\s\S]*?(triple backtick), so the leftmost-first,
non-overlapping matches pair each opening fence with the next closing fence;
every match is returned in order. -/
def code_matchesAux : Nat → Str → List Str
  | 0, _ => []
  | fuel + 1, s =>
    match findSub s (strOf "```") with
    | none => []
    | some i =>
      match findSub (List.drop (i + 3) s) (strOf "```") with
      | none => []
      | some j =>
        (List.take (j + 6) (List.drop i s)) :: code_matchesAux fuel (List.drop (i + j + 6) s)

/-- The fuel `length + 1` strictly exceeds the number of matches (each match
consumes at least six characters), so it never runs out. -/
def code_matches (t : Str) : List Str := code_matchesAux (t.length + 1) t

/-- Placeholder `__CODE_BLOCK_{i}__`. -/
def placeholderCode (i : Nat) : Str := strOf "__CODE_BLOCK_" ++ toDec i ++ strOf "__"

/-- Placeholder `__TABLE_{i}__`. -/
def placeholderTable (i : Nat) : Str := strOf "__TABLE_" ++ toDec i ++ strOf "__"

/-- The protection loop body: the matches were computed on the text as it was
when `finditer` was called (Python strings are immutable, so reassigning
`text` does not affect the iterator), and each one is substituted in turn by
`text.replace(match, placeholder, 1)`, recording the mapping in insertion
order. -/
def applyMatches (ph : Nat → Str) : List Str → Nat → Str → Str × List (Str × Str)
  | [], _, t => (t, [])
  | m :: ms, i, t =>
    let t2 := replaceFirst t m (ph i)
    let r := applyMatches ph ms (i + 1) t2
    (r.1, (ph i, m) :: r.2)

/-- chunker.py `TABLE_PATTERN` is `(\|[^\n]+\|\n)+`.  A single repetition
starting at `p` requires `t[p] = '|'`, and, with `n` the first newline at or
after `p`, requires `n ≥ p+3` (at least one character between two distinct
pipes, none of which can be a newline) and `t[n-1] = '|'`; it then ends just
after that newline.  Returns the end position of the repetition. -/
def line_match (t : Str) (p : Nat) : Option Nat :=
  if t.get? p = some '|' then
    match findSub (List.drop p t) (strOf "\n") with
    | none => none
    | some k =>
      if 3 ≤ k ∧ t.get? (p + k - 1) = some '|' then some (p + k + 1) else none
  else none

theorem line_match_bounds {t : Str} {p q : Nat} (h : line_match t p = some q) :
    p + 4 ≤ q ∧ q ≤ t.length := by
  unfold line_match at h
  split at h
  · split at h
    · cases h
    · rename_i k hk
      split at h
      · rename_i hc
        cases h
        have hb := findSub_le hk
        have h1 : (strOf "\n").length = 1 := rfl
        rw [h1] at hb
        simp only [List.length_drop] at hb
        omega
      · cases h
  · cases h

/-- The greedy `+` of `TABLE_PATTERN`: keep absorbing consecutive table lines.
Each successful extension advances by at least four characters (see
`line_match_bounds`), so fuel `length + 1` never runs out. -/
def extend_lines (t : Str) : Nat → Nat → Nat
  | 0, q => q
  | fuel + 1, q =>
    match line_match t q with
    | none => q
    | some q2 => extend_lines t fuel q2

/-- `TABLE_PATTERN.finditer`: scan start positions left to right; at the first
position where a repetition matches, extend greedily, emit the match, and
continue after it (matches are non-overlapping). -/
def table_scan (t : Str) : Nat → Nat → List Str
  | 0, _ => []
  | fuel + 1, p =>
    if p < t.length then
      match line_match t p with
      | none => table_scan t fuel (p + 1)
      | some q =>
        (List.take (extend_lines t (t.length + 1) q - p) (List.drop p t))
          :: table_scan t fuel (extend_lines t (t.length + 1) q)
    else []

/-- The scan position advances by at least one per step, so fuel `length + 1`
never runs out. -/
def table_matches (t : Str) : List Str := table_scan t (t.length + 1) 0

/-- chunker.py `HierarchicalChunker._protect_content`: code blocks first, then
tables, returning the protected text and the placeholder map in insertion
order. -/
def protect_content (t : Str) : Str × List (Str × Str) :=
  let r1 := applyMatches placeholderCode (code_matches t) 0 t
  let r2 := applyMatches placeholderTable (table_matches r1.1) 0 r1.1
  (r2.1, r1.2 ++ r2.2)

/-- chunker.py `HierarchicalChunker._restore_content`: substitute every
placeholder occurrence back, iterating the map in insertion order. -/
def restore_content (t : Str) (blocks : List (Str × Str)) : Str :=
  blocks.foldl (fun acc pr => replaceAll acc pr.1 pr.2) t

/- ----------------------------------------------------------------------
Hard Splitter (chunker.py `HierarchicalChunker._force_split`).  The scan
cursor `start` is a Python int and is modelled as `Int` (with overlap larger
than a cut it can go negative).  The while-loop need not terminate, so it is
given fuel; `none` means the fuel ran out. -/

/-- One loop iteration's cut position: `end = min(start + chunk_size, len)`,
adjusted back to the last space strictly after `start` when the cut falls
short of the text end. -/
def force_cut (text : Str) (chunk_size : Nat) (start : Int) : Int :=
  let end0 : Int := min (start + (chunk_size : Int)) (text.length : Int)
  if end0 < (text.length : Int) then
    let last_space := pyRfindChar text ' ' start end0
    if start < last_space then last_space else end0
  else end0

def force_split_loop (text : Str) (chunk_size overlap : Nat) : Nat → Int → Option (List Str)
  | 0, _ => none
  | fuel + 1, start =>
    if start < (text.length : Int) then
      match force_split_loop text chunk_size overlap fuel
          (if 0 < overlap then force_cut text chunk_size start - (overlap : Int)
           else force_cut text chunk_size start) with
      | none => none
      | some rest => some (pySlice text start (force_cut text chunk_size start) :: rest)
    else some []

def force_split (fuel : Nat) (text : Str) (chunk_size overlap : Nat) : Option (List Str) :=
  force_split_loop text chunk_size overlap fuel 0

/- ----------------------------------------------------------------------
Boundary Splitter (chunker.py `HierarchicalChunker._recursive_split`).  All
recursive calls drop the head separator, so the recursion is structural on the
separator list; only the Hard Splitter at the bottom needs fuel. -/

/-- Closing the in-progress segment: skip if empty, recurse into the remaining
separators if it exceeds the budget, append otherwise. -/
def close_chunk (chunk_size : Nat) (recur : Str → Option (List Str))
    (chunks : List Str) (current : Str) : Option (List Str) :=
  if current.isEmpty then some chunks
  else if chunk_size < current.length then
    match recur current with
    | none => none
    | some more => some (chunks ++ more)
  else some (chunks ++ [current])

/-- The accumulation loop over the pieces of one separator split: re-prefix
each piece except the first with the separator, append while the budget
allows, otherwise close the current segment and start a new one seeded with
the previous finished segment's trailing `overlap` slice. -/
def merge_splits (chunk_size overlap : Nat) (sep : Str)
    (recur : Str → Option (List Str)) :
    List Str → Bool → List Str → Str → Option (List Str)
  | [], _, chunks, current => close_chunk chunk_size recur chunks current
  | s :: rest, isFirst, chunks, current =>
    let s2 := if isFirst then s else sep ++ s
    if current.length + s2.length ≤ chunk_size then
      merge_splits chunk_size overlap sep recur rest false chunks (current ++ s2)
    else
      match close_chunk chunk_size recur chunks current with
      | none => none
      | some chunks2 =>
        let cur2 :=
          if !chunks2.isEmpty && decide (0 < overlap) then
            (if overlap < (chunks2.getLastD []).length then
                List.drop ((chunks2.getLastD []).length - overlap) (chunks2.getLastD [])
              else chunks2.getLastD []) ++ s2
          else s2
        merge_splits chunk_size overlap sep recur rest false chunks2 cur2

def recursive_split (fuel : Nat) (chunk_size overlap : Nat) :
    List Str → Str → Option (List Str)
  | [], text => force_split fuel text chunk_size overlap
  | sep :: remaining, text =>
    let splits := pySplit sep text
    if splits.length = 1 then
      recursive_split fuel chunk_size overlap remaining text
    else
      merge_splits chunk_size overlap sep
        (fun t => recursive_split fuel chunk_size overlap remaining t) splits true [] []

/-- chunker.py `HierarchicalChunker.SEPARATORS`, in priority order. -/
def SEPARATORS : List Str :=
  [strOf "\n## ", strOf "\n### ", strOf "\n#### ", strOf "\n```",
   strOf "\n\n", strOf "\n", strOf " "]

/- ----------------------------------------------------------------------
Metadata extraction (chunker.py `HierarchicalChunker._extract_metadata`).
The header regexes are `^#\s+(.+?)$`, `^##\s+(.+?)$`, `^###\s+(.+?)$` with
re.MULTILINE.  Derived scanning semantics for one start position p: the
position must be a line start holding the required run of '#'; `\s+` then
greedily takes the maximal whitespace run (which may cross newlines); the lazy
group `(.+?)$` is the text from the end of that run to the end of its line.
When the whitespace run reaches the end of the string the engine backtracks,
so the group becomes the last whitespace character of the run that is not a
newline (if any).  `re.search` returns the first position, scanned left to
right, at which this succeeds. -/

/-- Index of the first newline at or after `s`, or the text length. -/
def eolFrom (t : Str) (s : Nat) : Nat :=
  match findSub (List.drop s t) (strOf "\n") with
  | none => t.length
  | some k => s + k

/-- End of the maximal whitespace run starting at `s` (the run ends at the
text end at the latest, so fuel `length + 1` never runs out). -/
def wsRunEnd (t : Str) : Nat → Nat → Nat
  | 0, s => s
  | fuel + 1, s =>
    match t.get? s with
    | some c => if isPyWs c then wsRunEnd t fuel (s + 1) else s
    | none => s

/-- The largest position `i ≥ lo` whose character is not a newline. -/
def lastNonNl (t : Str) (lo : Nat) : Option Nat :=
  ((List.range t.length).filter
    (fun i => decide (lo ≤ i) && (t.get? i != some '\n'))).getLast?

def header_match_at (t : Str) (hashes : Nat) (p : Nat) : Option Str :=
  if (p = 0 ∨ t.get? (p - 1) = some '\n')
     ∧ List.take hashes (List.drop p t) = List.replicate hashes '#' then
    let a := p + hashes
    let q := wsRunEnd t (t.length + 1) a
    if q = a then none
    else if q < t.length then
      some (List.take (eolFrom t q - q) (List.drop q t))
    else
      match lastNonNl t (a + 1) with
      | none => none
      | some s => some (List.take (eolFrom t s - s) (List.drop s t))
  else none

def header_searchAux (t : Str) (hashes : Nat) : Nat → Nat → Option Str
  | 0, _ => none
  | fuel + 1, p =>
    if p < t.length then
      match header_match_at t hashes p with
      | some g => some g
      | none => header_searchAux t hashes fuel (p + 1)
    else none

def header_search (hashes : Nat) (t : Str) : Option Str :=
  header_searchAux t hashes (t.length + 1) 0

/-- chunker.py `COMMAND_PATTERN`-style detection used by `_extract_metadata`:
`re.search(r'vol\.py|vol\s+-f|volatility', chunk, re.IGNORECASE)`.  Since the
only use is truthiness, it is modelled as: some position matches one of the
alternatives (case-insensitively); in `vol\s+-f` the `-f` must follow the
maximal whitespace run, as `-` is not whitespace. -/
def isCommandAt (t : Str) (p : Nat) : Bool :=
  let s := List.drop p (pyLower t)
  (strOf "vol.py").isPrefixOf s
  || ((strOf "vol").isPrefixOf s &&
      (let r := List.drop 3 s
       let w := r.takeWhile isPyWs
       !w.isEmpty && (strOf "-f").isPrefixOf (List.drop w.length r)))
  || (strOf "volatility").isPrefixOf s

def extract_metadata (chunk : Str) : ChunkMetadata :=
  { chapter := (header_search 1 chunk).map pyStrip
    section_ := (header_search 2 chunk).map pyStrip
    subsection := (header_search 3 chunk).map pyStrip
    has_code := containsSub chunk (strOf "```")
    has_table := containsSub chunk (strOf "|---|") || containsSub chunk (strOf "| --- |")
    has_command := (List.range chunk.length).any (isCommandAt chunk) }

/- ----------------------------------------------------------------------
Page estimation (chunker.py `HierarchicalChunker._estimate_page`). -/

def insertSorted (x : Nat × Nat) : List (Nat × Nat) → List (Nat × Nat)
  | [] => [x]
  | y :: rest => if x.1 ≤ y.1 then x :: y :: rest else y :: insertSorted x rest

/-- Python `sorted(page_markers.items())`: the keys are distinct, so sorting
the pairs lexicographically is sorting by key. -/
def sortByKey : List (Nat × Nat) → List (Nat × Nat)
  | [] => []
  | x :: rest => insertSorted x (sortByKey rest)

/-- The for-loop with break: walk the sorted markers while the position is at
or past the marker. -/
def page_fold (position : Int) : List (Nat × Nat) → Nat → Nat
  | [], cur => cur
  | (pg, mp) :: rest, cur =>
    if (mp : Int) ≤ position then page_fold position rest pg else cur

def estimate_page (position : Int) (page_markers : List (Nat × Nat)) : Option Nat :=
  if page_markers.isEmpty then none
  else some (page_fold position (sortByKey page_markers) 1)

/- ----------------------------------------------------------------------
Chunk emission (chunker.py `HierarchicalChunker.chunk_content`). -/

/-- `f"{title.lower().replace(' ', '_')}_{chunk_index:04d}"`. -/
def make_chunk_id (title : Str) (idx : Nat) : Str :=
  replaceAll (pyLower title) (strOf " ") (strOf "_") ++ strOf "_" ++ pad4 idx

/-- Python `a or b` on falsy-able strings. -/
def pyOrStr (a b : Option Str) : Option Str := if isTruthy a then a else b

/-- The emission loop over the raw segments: restore, drop segments whose
stripped text is below the minimum, thread the running chapter/section
context, and yield `Chunk` records with consecutive indices. -/
def emit_loop (cfg : ChunkingConfig) (text : Str) (blocks : List (Str × Str))
    (title : Str) (page_markers : List (Nat × Nat)) :
    List Str → Nat → Option Str → Option Str → List Chunk
  | [], _, _, _ => []
  | raw :: rest, idx, curCh, curSec =>
    let restored := restore_content raw blocks
    if (pyStrip restored).length < cfg.min_chunk_size_chars then
      emit_loop cfg text blocks title page_markers rest idx curCh curSec
    else
      let md := extract_metadata restored
      let curCh2 := if isTruthy md.chapter then md.chapter else curCh
      let curSec2 := if isTruthy md.section_ then md.section_ else curSec
      let chunk_start : Int :=
        if 100 < restored.length then pyFind text (List.take 100 restored) else 0
      Chunk.mk (make_chunk_id title idx) (pyStrip restored)
          (chunkerBuildContextualPrefix title (pyOrStr curCh2 md.chapter)
            (pyOrStr curSec2 md.section_))
          (strOf "book") title (pyOrStr curCh2 md.chapter) (pyOrStr curSec2 md.section_)
          (estimate_page chunk_start page_markers) idx
        :: emit_loop cfg text blocks title page_markers rest (idx + 1) curCh2 curSec2

def chunk_content (fuel : Nat) (cfg : ChunkingConfig) (content : ExtractedContent) :
    Option (List Chunk) :=
  let text := content.markdown_content
  let pr := protect_content text
  match recursive_split fuel cfg.chunk_size_chars cfg.chunk_overlap_chars SEPARATORS pr.1 with
  | none => none
  | some raws =>
    some (emit_loop cfg text pr.2 content.document.title content.page_markers raws 0 none none)

/- ----------------------------------------------------------------------
Chunk quality validation (chunker.py `HierarchicalChunker.validate_chunk`).
The float score 1.0 with fixed deductions is modelled in exact rational
arithmetic; every comparison the claims make is unaffected by the
floating-point rounding of the source. -/

def sentenceEnd (s : Str) : Bool :=
  (strOf ".").isSuffixOf s || (strOf "!").isSuffixOf s || (strOf "?").isSuffixOf s
  || (strOf ":").isSuffixOf s || (strOf "```").isSuffixOf s || (strOf "|").isSuffixOf s

/-- The control characters of the garbage regex
`[\x00-\x08\x0b\x0c\x0e-\x1f\x7f-\x9f]`. -/
def isGarbage (c : Char) : Bool :=
  (c.toNat ≤ 8) || c.toNat == 0x0b || c.toNat == 0x0c
  || (0x0e ≤ c.toNat && c.toNat ≤ 0x1f) || (0x7f ≤ c.toNat && c.toNat ≤ 0x9f)

def validate_chunk (c : Chunk) : ChunkQualityMetrics :=
  let content := c.content
  let incomplete := !content.isEmpty && !sentenceEnd (rstrip content)
  let split_code := countSub content (strOf "```") % 2 != 0
  let split_table :=
    (strOf "|").isPrefixOf (pyStrip content) && !containsSub content (strOf "|---|")
  let garbage := content.any isGarbage
  let score : ℚ := 1 - (if incomplete then 1/10 else 0) - (if split_code then 3/10 else 0)
    - (if split_table then 2/10 else 0) - (if garbage then 2/10 else 0)
  { is_complete_sentence := !incomplete
    has_split_code_block := split_code
    has_split_table := split_table
    has_garbage_chars := garbage
    quality_score := max 0 score
    issues :=
      (if incomplete then [strOf "Chunk may end mid-sentence"] else [])
      ++ (if split_code then [strOf "Code block may be split"] else [])
      ++ (if split_table then [strOf "Table may be split"] else [])
      ++ (if garbage then [strOf "Contains garbage characters"] else []) }

/- ----------------------------------------------------------------------
Concrete inputs used by several theorems below. -/

/-- A ten-character space-free text. -/
def exA : Str := List.replicate 10 'a'

def cfgBad : ChunkingConfig := { chunk_size := 10, chunk_overlap := 10, min_chunk_size := 100 }

def contentW : ExtractedContent :=
  { document := { title := strOf "T", file_path := strOf "t.pdf" }
    markdown_content := strOf "aaaa" }

def cfgW : ChunkingConfig := { chunk_size := 1, chunk_overlap := 0, min_chunk_size := 1 }

/- ----------------------------------------------------------------------
Claim C1.  In `_force_split`, once the cut end reaches the text end the next
cursor is `end - overlap`, which (for positive overlap) is strictly before the
text end again, so the loop never exits.  We prove divergence for every
space-free text with `0 < overlap ≤ chunk_size ≤ ...` starting anywhere inside
the text, and instantiate it at a concrete input. -/

theorem pyRfindChar_cases (t : Str) (c : Char) (a b : Int) :
    pyRfindChar t c a b = -1 ∨
    (0 ≤ pyRfindChar t c a b ∧ pyRfindChar t c a b < ((sliceIdx t.length b : Nat) : Int)
      ∧ pyRfindChar t c a b < (t.length : Int)) := by
  simp only [pyRfindChar]
  rcases hl : (((List.range t.length)).filter
      (fun i => decide (sliceIdx t.length a ≤ i) && decide (i < sliceIdx t.length b)
        && (t.get? i == some c))).getLast? with _ | i
  · left; rfl
  · right
    have hopt : i ∈ (((List.range t.length)).filter
        (fun i => decide (sliceIdx t.length a ≤ i) && decide (i < sliceIdx t.length b)
          && (t.get? i == some c))).getLast? := hl
    obtain ⟨hne, heq⟩ := List.mem_getLast?_eq_getLast hopt
    have hmem := heq ▸ List.getLast_mem hne
    have hfil := List.mem_filter.mp hmem
    have hrange := List.mem_range.mp hfil.1
    have hcond := hfil.2
    simp only [Bool.and_eq_true, decide_eq_true_eq] at hcond
    dsimp only
    refine ⟨by omega, by exact_mod_cast hcond.1.2, by exact_mod_cast hrange⟩

/-- The adjusted cut never exceeds the text end. -/
theorem force_cut_le (t : Str) (cs : Nat) (start : Int) :
    force_cut t cs start ≤ (t.length : Int) := by
  unfold force_cut
  rcases pyRfindChar_cases t ' ' start (min (start + (cs : Int)) ((t.length : Int))) with h | h <;>
    simp only <;> split <;> try split
  all_goals omega

/-- For a non-negative cursor, the cut is non-negative and overshoots the
cursor by at most the chunk size. -/
theorem force_cut_bounds (t : Str) (cs : Nat) (start : Int) (h0 : 0 ≤ start) :
    0 ≤ force_cut t cs start ∧ force_cut t cs start ≤ start + (cs : Int) := by
  unfold force_cut
  have hcases := pyRfindChar_cases t ' ' start (min (start + (cs : Int)) ((t.length : Int)))
  have hslice : (sliceIdx t.length (min (start + (cs : Int)) ((t.length : Int))) : Int)
      ≤ min (start + (cs : Int)) ((t.length : Int)) := by
    unfold sliceIdx
    split <;> omega
  rcases hcases with h | h <;> simp only <;> split <;> try split
  all_goals omega

/-- With a positive overlap, once the cursor is inside the text the loop can
never exit: each iteration sets the next cursor to the cut end minus the
overlap, and the cut end never exceeds the text length, so the cursor stays
strictly inside the text forever. -/
theorem force_split_loop_ov_pos_none {ov : Nat} (hov : 0 < ov) :
    ∀ (fuel : Nat) (t : Str) (cs : Nat) (start : Int), start < (t.length : Int) →
      force_split_loop t cs ov fuel start = none := by
  intro fuel
  induction fuel with
  | zero => intro t cs start _; rfl
  | succ n ih =>
    intro t cs start hlt
    simp only [force_split_loop]
    rw [if_pos hlt]
    rw [if_pos hov]
    have hend := force_cut_le t cs start
    rw [ih t cs _ (by omega)]

/-- Claim C1: the claim states that `_force_split` terminates for every finite
input and positive chunk size, in particular with a positive overlap once the
final piece has been cut at the text end.  The code refutes this: on the
ten-character space-free text `exA` with chunk size 5 and overlap 2 the scan
cursor gets stuck at `len - overlap` and the loop never exits, so the
fuel-indexed model returns `none` for every fuel.  (The claim is right about
the intent — the module exists to chunk documents, and the specification's own
testable property asserts termination — so this is a bug in the code.) -/
theorem force_split_diverges : ∀ fuel : Nat, force_split fuel exA 5 2 = none := by
  intro fuel
  unfold force_split
  exact force_split_loop_ov_pos_none (by omega) fuel exA 5 0 (by decide)

/-- Claim C3: the claim states that an invalid size/overlap combination (in
particular overlap ≥ chunk size) is rejected when the configuration or the
chunker is constructed.  The code refutes this: `ChunkingConfig` is a plain
dataclass with no validation and `HierarchicalChunker.__init__` merely stores
it, so a config with `chunk_overlap = chunk_size = 10` is accepted unchanged.
(The specification explicitly calls for the guard, so this is a gap in the
code.) -/
theorem chunking_config_no_validation :
    chunker_init (some cfgBad) = cfgBad
    ∧ cfgBad.chunk_size ≤ cfgBad.chunk_overlap
    ∧ cfgBad.chunk_size_chars ≤ cfgBad.chunk_overlap_chars := by
  refine ⟨rfl, by decide, by decide⟩

/-- Claim C9: chunking is deterministic — it is a pure function of the
extracted content and the configuration, so two runs on equal inputs produce
equal results, and when both runs produce chunk lists the lists agree position
by position. -/
theorem chunk_content_deterministic :
    ∀ (fuel : Nat) (cfg1 cfg2 : ChunkingConfig) (c1 c2 : ExtractedContent),
      c1 = c2 → cfg1 = cfg2 →
      chunk_content fuel cfg1 c1 = chunk_content fuel cfg2 c2 ∧
      ∀ l1 l2, chunk_content fuel cfg1 c1 = some l1 → chunk_content fuel cfg2 c2 = some l2 →
        l1.length = l2.length ∧
        ∀ (k : Nat) (h1 : k < l1.length) (h2 : k < l2.length), l1.get ⟨k, h1⟩ = l2.get ⟨k, h2⟩ := by
  intro fuel cfg1 cfg2 c1 c2 h1 h2
  subst h1
  subst h2
  refine ⟨rfl, ?_⟩
  intro l1 l2 e1 e2
  rw [e1] at e2
  cases e2
  exact ⟨rfl, fun k hk1 hk2 => rfl⟩

theorem chunk_content_deterministic_witness :
    chunk_content 9 cfgW contentW = chunk_content 9 cfgW contentW :=
  (chunk_content_deterministic 9 cfgW cfgW contentW contentW rfl rfl).1

/-- Claim C10: `preprocess_chunk` changes no field but the contextual prefix:
the identifier, content, source type, book title, chapter, section, page and
index of the result equal those of the argument; a chunk that already carries
a non-empty prefix is returned unchanged, and otherwise the prefix of the
result is recomputed from the chunk's own fields.  (In the embedding the
argument value is never mutated by construction; the Python code likewise
builds a fresh `Chunk`.) -/
theorem preprocess_chunk_frame :
    ∀ (cfg : ContextualConfig) (c : Chunk),
      (preprocess_chunk cfg c).chunk_id = c.chunk_id ∧
      (preprocess_chunk cfg c).content = c.content ∧
      (preprocess_chunk cfg c).source_type = c.source_type ∧
      (preprocess_chunk cfg c).book_title = c.book_title ∧
      (preprocess_chunk cfg c).chapter = c.chapter ∧
      (preprocess_chunk cfg c).section_ = c.section_ ∧
      (preprocess_chunk cfg c).page = c.page ∧
      (preprocess_chunk cfg c).chunk_index = c.chunk_index ∧
      (¬ c.contextualPrefix = [] → preprocess_chunk cfg c = c) ∧
      (c.contextualPrefix = [] →
        (preprocess_chunk cfg c).contextualPrefix
          = buildContextualPrefix cfg (some c.book_title) c.chapter c.section_ c.page
              c.source_type) := by
  intro cfg c
  unfold preprocess_chunk
  by_cases h : c.contextualPrefix.isEmpty
  · rw [if_pos h]
    have he : c.contextualPrefix = [] := List.isEmpty_iff.mp h
    exact ⟨rfl, rfl, rfl, rfl, rfl, rfl, rfl, rfl, fun hne => absurd he hne, fun _ => rfl⟩
  · rw [if_neg h]
    have he : ¬ c.contextualPrefix = [] := fun hni => h (List.isEmpty_iff.mpr hni)
    exact ⟨rfl, rfl, rfl, rfl, rfl, rfl, rfl, rfl, fun _ => rfl, fun heq => absurd heq he⟩

def chunkW : Chunk :=
  { chunk_id := strOf "t_0000", content := strOf "hello.", contextualPrefix := [],
    book_title := strOf "T" }

theorem preprocess_chunk_frame_witness :
    (preprocess_chunk {} chunkW).content = chunkW.content ∧
    (preprocess_chunk {} chunkW).contextualPrefix
      = buildContextualPrefix {} (some chunkW.book_title) chunkW.chapter chunkW.section_
          chunkW.page chunkW.source_type ∧
    chunkW.contextualPrefix = [] := by
  refine ⟨(preprocess_chunk_frame {} chunkW).2.1,
    (preprocess_chunk_frame {} chunkW).2.2.2.2.2.2.2.2.2 rfl, rfl⟩

/-- Claim C6: a chunk whose content holds an odd number of triple-backtick
markers is flagged `has_split_code_block` and scores at most 0.7; in general
the score is 1.0 minus the fixed deduction for each raised flag (0.1
truncation, 0.3 split code, 0.2 split table, 0.2 garbage), floored at 0.0
(exact rational arithmetic standing in for the source's floats). -/
theorem score_formula (b1 b2 b3 b4 : Bool) :
    (max (0:ℚ) (1 - (if b1 then 1/10 else 0) - (if b2 then 3/10 else 0)
        - (if b3 then 2/10 else 0) - (if b4 then 2/10 else 0))
      = max 0 (1 - (if !b1 then 0 else 1/10) - (if b2 then 3/10 else 0)
        - (if b3 then 2/10 else 0) - (if b4 then 2/10 else 0))) ∧
    (0:ℚ) ≤ max 0 (1 - (if b1 then 1/10 else 0) - (if b2 then 3/10 else 0)
        - (if b3 then 2/10 else 0) - (if b4 then 2/10 else 0)) ∧
    (b2 = true → max (0:ℚ) (1 - (if b1 then 1/10 else 0) - (if b2 then 3/10 else 0)
        - (if b3 then 2/10 else 0) - (if b4 then 2/10 else 0)) ≤ 7/10) := by
  cases b1 <;> cases b2 <;> cases b3 <;> cases b4 <;>
    refine ⟨by norm_num, by norm_num [le_max_iff], fun h => ?_⟩ <;>
    first
      | exact absurd h (by decide)
      | norm_num [max_le_iff]

/-- Claim C6: a chunk whose content holds an odd number of triple-backtick
markers is flagged `has_split_code_block` and scores at most 0.7; in general
the score is 1.0 minus the fixed deduction for each raised flag (0.1
truncation, 0.3 split code, 0.2 split table, 0.2 garbage), floored at 0.0
(exact rational arithmetic standing in for the source's floats). -/
theorem validate_chunk_odd_fence :
    ∀ c : Chunk,
      (validate_chunk c).quality_score
        = max 0 (1 - (if (validate_chunk c).is_complete_sentence then 0 else 1/10)
            - (if (validate_chunk c).has_split_code_block then 3/10 else 0)
            - (if (validate_chunk c).has_split_table then 2/10 else 0)
            - (if (validate_chunk c).has_garbage_chars then 2/10 else 0)) ∧
      (0 : ℚ) ≤ (validate_chunk c).quality_score ∧
      (countSub c.content (strOf "```") % 2 = 1 →
        (validate_chunk c).has_split_code_block = true ∧
        (validate_chunk c).quality_score ≤ 7/10) := by
  intro c
  have h := score_formula (!c.content.isEmpty && !sentenceEnd (rstrip c.content))
      (countSub c.content (strOf "```") % 2 != 0)
      ((strOf "|").isPrefixOf (pyStrip c.content) && !containsSub c.content (strOf "|---|"))
      (c.content.any isGarbage)
  refine ⟨h.1, h.2.1, fun hodd => ?_⟩
  have hb2 : (countSub c.content (strOf "```") % 2 != 0) = true := by
    rw [hodd]
    decide
  exact ⟨hb2, h.2.2 hb2⟩

/- ----------------------------------------------------------------------
Claim C2.  First the budget bound on the raw segments produced by the
splitter: every segment of a terminating run is at most `chunk_size`
characters, because segments are only ever closed under the budget or handed
down to finer separators, bottoming out at the Hard Splitter whose cuts are at
most `chunk_size` apart. -/

theorem pySlice_length_le (t : Str) (a b : Int) (cs : Nat)
    (h1 : b ≤ a + (cs : Int)) (h2 : 0 ≤ a → 0 ≤ b) :
    (pySlice t a b).length ≤ cs := by
  rcases le_or_lt 0 a with ha | ha
  · have hb := h2 ha
    simp only [pySlice, sliceIdx, List.length_drop, List.length_take]
    split_ifs <;> omega
  · simp only [pySlice, sliceIdx, List.length_drop, List.length_take]
    split_ifs <;> omega

theorem force_split_loop_le :
    ∀ (fuel : Nat) (t : Str) (cs ov : Nat) (start : Int) (l : List Str), 0 ≤ start →
      force_split_loop t cs ov fuel start = some l → ∀ p ∈ l, p.length ≤ cs := by
  intro fuel
  induction fuel with
  | zero => intro t cs ov start l _ h; cases h
  | succ n ih =>
    intro t cs ov start l h0 h
    simp only [force_split_loop] at h
    by_cases hlt : start < (t.length : Int)
    · rw [if_pos hlt] at h
      by_cases hov : 0 < ov
      · rw [if_pos hov] at h
        have hle := force_cut_le t cs start
        rw [force_split_loop_ov_pos_none hov n t cs _ (by omega)] at h
        cases h
      · rw [if_neg hov] at h
        have hb := force_cut_bounds t cs start h0
        rcases hrec : force_split_loop t cs ov n (force_cut t cs start) with _ | rest
        · rw [hrec] at h; cases h
        · rw [hrec] at h
          cases h
          intro p hp
          rcases List.mem_cons.mp hp with hp | hp
          · subst hp
            exact pySlice_length_le t start (force_cut t cs start) cs hb.2 (fun _ => hb.1)
          · exact ih t cs ov (force_cut t cs start) rest hb.1 hrec p hp
    · rw [if_neg hlt] at h
      cases h
      intro p hp
      exact absurd hp (List.not_mem_nil p)

theorem close_chunk_le {cs : Nat} {recur : Str → Option (List Str)}
    (hrec : ∀ t l, recur t = some l → ∀ p ∈ l, p.length ≤ cs) :
    ∀ (chunks : List Str) (current : Str) (l : List Str), (∀ p ∈ chunks, p.length ≤ cs) →
      close_chunk cs recur chunks current = some l → ∀ p ∈ l, p.length ≤ cs := by
  intro chunks current l hch h
  unfold close_chunk at h
  split at h
  · cases h; exact hch
  · split at h
    · rcases hr : recur current with _ | more
      · rw [hr] at h; cases h
      · rw [hr] at h
        cases h
        intro p hp
        rcases List.mem_append.mp hp with hp | hp
        · exact hch p hp
        · exact hrec current more hr p hp
    · rename_i hne hgt
      cases h
      intro p hp
      rcases List.mem_append.mp hp with hp | hp
      · exact hch p hp
      · rw [List.mem_singleton.mp hp]
        omega

theorem merge_splits_le {cs ov : Nat} {sep : Str} {recur : Str → Option (List Str)}
    (hrec : ∀ t l, recur t = some l → ∀ p ∈ l, p.length ≤ cs) :
    ∀ (splits : List Str) (isFirst : Bool) (chunks : List Str) (current : Str) (l : List Str),
      (∀ p ∈ chunks, p.length ≤ cs) →
      merge_splits cs ov sep recur splits isFirst chunks current = some l →
      ∀ p ∈ l, p.length ≤ cs := by
  intro splits
  induction splits with
  | nil =>
    intro isFirst chunks current l hch h
    exact close_chunk_le hrec chunks current l hch h
  | cons s rest ih =>
    intro isFirst chunks current l hch h
    simp only [merge_splits] at h
    generalize (if isFirst = true then s else sep ++ s) = s2 at h
    split at h
    · exact ih false chunks _ l hch h
    · rcases hcl : close_chunk cs recur chunks current with _ | chunks2
      · rw [hcl] at h; cases h
      · rw [hcl] at h
        dsimp only at h
        have hch2 := close_chunk_le hrec chunks current chunks2 hch hcl
        exact ih false chunks2 _ l hch2 h

theorem recursive_split_le :
    ∀ (seps : List Str) (fuel cs ov : Nat) (text : Str) (l : List Str),
      recursive_split fuel cs ov seps text = some l → ∀ p ∈ l, p.length ≤ cs := by
  intro seps
  induction seps with
  | nil =>
    intro fuel cs ov text l h
    exact force_split_loop_le fuel text cs ov 0 l (by omega) h
  | cons sep remaining ih =>
    intro fuel cs ov text l h
    simp only [recursive_split] at h
    split at h
    · exact ih fuel cs ov text l h
    · exact merge_splits_le (fun t l' ht => ih fuel cs ov t l' ht)
        (pySplit sep text) true [] [] l (fun p hp => absurd hp (List.not_mem_nil p)) h

/-- Every emitted chunk's content is the stripped restoration of one raw
segment of the split. -/
theorem emit_loop_content :
    ∀ (raws : List Str) (cfg : ChunkingConfig) (text : Str) (blocks : List (Str × Str))
      (title : Str) (pm : List (Nat × Nat)) (idx : Nat) (curCh curSec : Option Str),
      ∀ c ∈ emit_loop cfg text blocks title pm raws idx curCh curSec,
        ∃ raw ∈ raws, c.content = pyStrip (restore_content raw blocks) := by
  intro raws
  induction raws with
  | nil =>
    intro _ _ _ _ _ _ _ _ c hc
    simp only [emit_loop] at hc
    exact absurd hc (List.not_mem_nil c)
  | cons raw rest ih =>
    intro cfg text blocks title pm idx curCh curSec c hc
    simp only [emit_loop] at hc
    split at hc
    · obtain ⟨r, hr, he⟩ := ih cfg text blocks title pm idx curCh curSec c hc
      exact ⟨r, List.mem_cons_of_mem _ hr, he⟩
    · rcases List.mem_cons.mp hc with hc | hc
      · subst hc
        exact ⟨raw, List.mem_cons_self _ _, rfl⟩
      · obtain ⟨r, hr, he⟩ := ih cfg text blocks title pm (idx + 1) _ _ c hc
        exact ⟨r, List.mem_cons_of_mem _ hr, he⟩

/-- Claim C2 (amended): every chunk emitted by a terminating `chunk_content`
run is the stripped restoration of a raw segment of at most `chunk_size_chars`
characters; after restoration the content may exceed the budget by the
combined expansion of every protected block whose placeholder the segment
carries — possibly several — not by at most one protected block as the
original claim stated. -/
theorem chunk_content_raw_budget :
    ∀ (fuel : Nat) (cfg : ChunkingConfig) (content : ExtractedContent) (l : List Chunk),
      chunk_content fuel cfg content = some l →
      ∀ c ∈ l, ∃ raw : Str, raw.length ≤ cfg.chunk_size_chars ∧
        c.content = pyStrip (restore_content raw (protect_content content.markdown_content).2) := by
  intro fuel cfg content l h c hc
  simp only [chunk_content] at h
  rcases hrec : recursive_split fuel cfg.chunk_size_chars cfg.chunk_overlap_chars SEPARATORS
      (protect_content content.markdown_content).1 with _ | raws
  · rw [hrec] at h; cases h
  · rw [hrec] at h
    cases h
    obtain ⟨raw, hraw, he⟩ := emit_loop_content raws cfg content.markdown_content
      (protect_content content.markdown_content).2 content.document.title content.page_markers
      0 none none c hc
    exact ⟨raw, recursive_split_le SEPARATORS fuel _ _ _ raws hrec raw hraw, he⟩

def defaultChunk : Chunk := { chunk_id := [], content := [], book_title := [] }

def chunkW0 : Chunk := ((chunk_content 9 cfgW contentW).getD []).headD defaultChunk

theorem chunk_content_raw_budget_witness :
    ∃ raw : Str, raw.length ≤ cfgW.chunk_size_chars ∧
      chunkW0.content
        = pyStrip (restore_content raw (protect_content contentW.markdown_content).2) :=
  chunk_content_raw_budget 9 cfgW contentW ((chunk_content 9 cfgW contentW).getD [])
    (by decide) chunkW0 (by decide)

/-- Two 100-character protected code blocks whose placeholders both fit in one
40-character budget. -/
def blockA : Str := strOf "```" ++ List.replicate 94 'a' ++ strOf "```"

def blockB : Str := strOf "```" ++ List.replicate 94 'b' ++ strOf "```"

def textC2 : Str := blockA ++ strOf "\n\n" ++ blockB

def contentC2 : ExtractedContent :=
  { document := { title := strOf "Doc", file_path := strOf "d.pdf" }
    markdown_content := textC2 }

def cfgC2 : ChunkingConfig := { chunk_size := 10, chunk_overlap := 0, min_chunk_size := 1 }

/-- Claim C2, counterexample to the original statement: with a 40-character
budget and two protected blocks of 100 characters each, the single emitted
chunk has restored content of 202 characters, exceeding `chunk_size_chars`
plus the length of any one protected block (40 + 100 = 140 < 202). -/
theorem chunk_budget_two_blocks_counterexample :
    (chunk_content 99 cfgC2 contentC2).map (fun l => l.map (fun c => c.content.length))
      = some [202]
    ∧ cfgC2.chunk_size_chars = 40
    ∧ ((protect_content textC2).2.map (fun pr => pr.2.length)) = [100, 100]
    ∧ 40 + 100 < 202 := by
  exact ⟨by decide, by decide, by decide, by decide⟩

def chunkOdd : Chunk :=
  { chunk_id := strOf "x", content := strOf "```abc", book_title := strOf "B" }

theorem validate_chunk_odd_fence_witness :
    countSub chunkOdd.content (strOf "```") % 2 = 1 ∧
    (validate_chunk chunkOdd).has_split_code_block = true ∧
    (validate_chunk chunkOdd).quality_score ≤ 7/10 := by
  have h := (validate_chunk_odd_fence chunkOdd).2.2 (by decide)
  exact ⟨by decide, h.1, h.2⟩

/- ----------------------------------------------------------------------
Claim C7.  The decimal value of a rendered number recovers the number, so the
zero-padded decimal in a chunk id is injective, and chunk ids within one
document differ whenever their indices do. -/

def decVal (s : Str) : Nat := s.foldl (fun a c => a * 10 + (c.toNat - 48)) 0

theorem digitChar_toNat : ∀ d : Nat, d < 10 → (Nat.digitChar d).toNat = 48 + d := by
  intro d hd
  interval_cases d <;> rfl

theorem decVal_append_digit (s : Str) (c : Char) :
    decVal (s ++ [c]) = decVal s * 10 + (c.toNat - 48) := by
  unfold decVal
  rw [List.foldl_append]
  rfl

theorem toDecAux_val : ∀ (fuel n : Nat), n < fuel → decVal (toDecAux fuel n) = n := by
  intro fuel
  induction fuel with
  | zero => intro n h; omega
  | succ f ih =>
    intro n h
    unfold toDecAux
    split
    · rename_i hlt
      show decVal [Nat.digitChar n] = n
      unfold decVal
      simp only [List.foldl_cons, List.foldl_nil]
      rw [digitChar_toNat n hlt]
      omega
    · rename_i hge
      rw [decVal_append_digit]
      rw [ih (n / 10) (by omega)]
      rw [digitChar_toNat (n % 10) (by omega)]
      omega

theorem toDec_val (n : Nat) : decVal (toDec n) = n := toDecAux_val (n + 1) n (by omega)

theorem decVal_replicate_zero (k : Nat) (s : Str) :
    decVal (List.replicate k '0' ++ s) = decVal s := by
  induction k with
  | zero => rfl
  | succ m ih =>
    rw [List.replicate_succ, List.cons_append]
    show decVal (List.replicate m '0' ++ s) = decVal s
    exact ih

theorem pad4_val (n : Nat) : decVal (pad4 n) = n := by
  unfold pad4
  simp only
  split
  · rw [decVal_replicate_zero]
    exact toDec_val n
  · exact toDec_val n

theorem pad4_inj {m n : Nat} (h : pad4 m = pad4 n) : m = n := by
  have hm := pad4_val m
  rw [h, pad4_val] at hm
  omega

theorem make_chunk_id_inj (title : Str) {i j : Nat}
    (h : make_chunk_id title i = make_chunk_id title j) : i = j := by
  unfold make_chunk_id at h
  exact pad4_inj (List.append_cancel_left h)

/-- The emission loop numbers its output consecutively from the starting
index, and derives each chunk id from that number. -/
theorem emit_loop_fields :
    ∀ (raws : List Str) (cfg : ChunkingConfig) (text : Str) (blocks : List (Str × Str))
      (title : Str) (pm : List (Nat × Nat)) (idx : Nat) (curCh curSec : Option Str)
      (k : Nat) (c : Chunk),
      (emit_loop cfg text blocks title pm raws idx curCh curSec).get? k = some c →
      c.chunk_index = idx + k ∧ c.chunk_id = make_chunk_id title (idx + k) := by
  intro raws
  induction raws with
  | nil =>
    intro cfg text blocks title pm idx curCh curSec k c h
    simp only [emit_loop, List.get?_nil] at h
    exact Option.noConfusion h
  | cons raw rest ih =>
    intro cfg text blocks title pm idx curCh curSec k c h
    simp only [emit_loop] at h
    split at h
    · exact ih cfg text blocks title pm idx curCh curSec k c h
    · match k with
      | 0 =>
        simp only [List.get?_cons_zero] at h
        cases h
        exact ⟨by simp, by simp⟩
      | Nat.succ k' =>
        simp only [List.get?_cons_succ] at h
        have hik := ih cfg text blocks title pm (idx + 1) _ _ k' c h
        have harith : idx + 1 + k' = idx + (k' + 1) := by omega
        rw [harith] at hik
        exact hik

/-- Claim C7: in any terminating chunking run the emitted `chunk_index`
values, in emission order, are exactly 0, 1, 2, ...: the k-th emitted chunk
carries index k, so they are contiguous from 0 and strictly increasing; and
the derived `chunk_id` (title plus zero-padded index) is unique within the
document — chunks at distinct positions have distinct ids. -/
theorem chunk_index_contiguous_id_unique :
    ∀ (fuel : Nat) (cfg : ChunkingConfig) (content : ExtractedContent) (l : List Chunk),
      chunk_content fuel cfg content = some l →
      (∀ (k : Nat) (c : Chunk), l.get? k = some c → c.chunk_index = k) ∧
      (∀ (k1 k2 : Nat) (c1 c2 : Chunk), l.get? k1 = some c1 → l.get? k2 = some c2 →
        k1 ≠ k2 → ¬ c1.chunk_id = c2.chunk_id) := by
  intro fuel cfg content l h
  simp only [chunk_content] at h
  rcases hrec : recursive_split fuel cfg.chunk_size_chars cfg.chunk_overlap_chars SEPARATORS
      (protect_content content.markdown_content).1 with _ | raws
  · rw [hrec] at h; cases h
  · rw [hrec] at h
    cases h
    constructor
    · intro k c hk
      have := (emit_loop_fields raws cfg content.markdown_content
        (protect_content content.markdown_content).2 content.document.title
        content.page_markers 0 none none k c hk).1
      omega
    · intro k1 k2 c1 c2 h1 h2 hne heq
      have e1 := (emit_loop_fields raws cfg content.markdown_content
        (protect_content content.markdown_content).2 content.document.title
        content.page_markers 0 none none k1 c1 h1).2
      have e2 := (emit_loop_fields raws cfg content.markdown_content
        (protect_content content.markdown_content).2 content.document.title
        content.page_markers 0 none none k2 c2 h2).2
      rw [e1, e2] at heq
      have := make_chunk_id_inj content.document.title heq
      omega

theorem chunk_index_contiguous_id_unique_witness :
    ((chunk_content 9 cfgW contentW).getD []).get? 0 = some chunkW0 ∧
    chunkW0.chunk_index = 0 :=
  ⟨by decide, (chunk_index_contiguous_id_unique 9 cfgW contentW
      ((chunk_content 9 cfgW contentW).getD []) (by decide)).1 0 chunkW0 (by decide)⟩

/- ----------------------------------------------------------------------
Claim C8. -/

theorem emit_loop_min_le :
    ∀ (raws : List Str) (cfg : ChunkingConfig) (text : Str) (blocks : List (Str × Str))
      (title : Str) (pm : List (Nat × Nat)) (idx : Nat) (curCh curSec : Option Str),
      ∀ c ∈ emit_loop cfg text blocks title pm raws idx curCh curSec,
        cfg.min_chunk_size_chars ≤ c.content.length := by
  intro raws
  induction raws with
  | nil =>
    intro _ _ _ _ _ _ _ _ c hc
    simp only [emit_loop] at hc
    exact absurd hc (List.not_mem_nil c)
  | cons raw rest ih =>
    intro cfg text blocks title pm idx curCh curSec c hc
    simp only [emit_loop] at hc
    split at hc
    · exact ih cfg text blocks title pm idx curCh curSec c hc
    · rename_i hkeep
      rcases List.mem_cons.mp hc with hc | hc
      · subst hc
        simp only
        omega
      · exact ih cfg text blocks title pm (idx + 1) _ _ c hc

/-- Claim C8: a raw segment whose restored, stripped text is shorter than
`min_chunk_size_chars` is silently skipped — the emission loop produces the
same output as without it, and in particular the index does not advance; as a
consequence, every emitted chunk's (stripped) content has length at least
`min_chunk_size_chars`, hence is non-empty whenever the configured minimum is
positive. -/
theorem min_size_skip_and_bound :
    (∀ (cfg : ChunkingConfig) (text : Str) (blocks : List (Str × Str)) (title : Str)
        (pm : List (Nat × Nat)) (raws : List Str) (idx : Nat) (curCh curSec : Option Str)
        (raw : Str),
      (pyStrip (restore_content raw blocks)).length < cfg.min_chunk_size_chars →
      emit_loop cfg text blocks title pm (raw :: raws) idx curCh curSec
        = emit_loop cfg text blocks title pm raws idx curCh curSec) ∧
    (∀ (fuel : Nat) (cfg : ChunkingConfig) (content : ExtractedContent) (l : List Chunk),
      chunk_content fuel cfg content = some l →
      ∀ c ∈ l, cfg.min_chunk_size_chars ≤ c.content.length ∧
        (0 < cfg.min_chunk_size_chars → ¬ c.content = [])) := by
  constructor
  · intro cfg text blocks title pm raws idx curCh curSec raw hlt
    simp only [emit_loop]
    rw [if_pos hlt]
  · intro fuel cfg content l h c hc
    simp only [chunk_content] at h
    rcases hrec : recursive_split fuel cfg.chunk_size_chars cfg.chunk_overlap_chars SEPARATORS
        (protect_content content.markdown_content).1 with _ | raws
    · rw [hrec] at h; cases h
    · rw [hrec] at h
      cases h
      have hle := emit_loop_min_le raws cfg content.markdown_content
        (protect_content content.markdown_content).2 content.document.title
        content.page_markers 0 none none c hc
      refine ⟨hle, fun hpos hnil => ?_⟩
      rw [hnil] at hle
      simp only [List.length_nil] at hle
      omega

theorem min_size_skip_and_bound_witness :
    cfgW.min_chunk_size_chars ≤ chunkW0.content.length ∧ ¬ chunkW0.content = [] := by
  have h := min_size_skip_and_bound.2 9 cfgW contentW
    ((chunk_content 9 cfgW contentW).getD []) (by decide) chunkW0 (by decide)
  exact ⟨h.1, h.2 (by decide)⟩

/- ----------------------------------------------------------------------
Claim C4.  The round-trip claim fails when a code block lies inside a table:
the table's recorded original then contains the code placeholder, and since
`_restore_content` iterates the map in insertion order (code placeholders
first, then tables), the nested code placeholder is reinserted after its own
substitution pass has already run and is never restored. -/

def textC4 : Str := strOf "|```x```|\n"

/-- Claim C4, counterexample to the original statement: `textC4` has balanced
code fences (an even fence count, here one complete block) and a table that
the table pattern itself accepts (the protection pass records exactly one code
block and one table), yet restoring the protected text does not reproduce the
input: the result still contains the unrestored code placeholder. -/
theorem protect_restore_table_code_counterexample :
    countSub textC4 (strOf "```") % 2 = 0
    ∧ (protect_content textC4).2.map (fun pr => pr.1) =
        [strOf "__CODE_BLOCK_0__", strOf "__TABLE_0__"]
    ∧ restore_content (protect_content textC4).1 (protect_content textC4).2
        = strOf "|__CODE_BLOCK_0__|\n"
    ∧ ¬ restore_content (protect_content textC4).1 (protect_content textC4).2 = textC4 := by
  exact ⟨by decide, by decide, by decide, by decide⟩

/- Toolkit for the amended round-trip theorem: how `findSub`, `replaceAll` and
the scanners act on concatenations whose left part cannot contain the needle's
head character. -/

theorem isPrefixOf_cons_neg {c d : Char} {pr s : Str} (h : ¬ c = d) :
    (c :: pr).isPrefixOf (d :: s) = false := by
  have hcd : (c == d) = false := by
    simp only [beq_eq_false_iff_ne, ne_eq]
    exact h
  simp [List.isPrefixOf, hcd]

theorem isPrefixOf_false_of_mem_notin {q s : Str} {c : Char} (hq : c ∈ q) (hs : c ∉ s) :
    q.isPrefixOf s = false := by
  rw [Bool.eq_false_iff]
  intro h
  exact hs (List.IsPrefix.subset (List.isPrefixOf_iff_prefix.mp h) hq)

theorem isPrefixOf_self_append (p b : Str) : p.isPrefixOf (p ++ b) = true :=
  List.isPrefixOf_iff_prefix.mpr (List.prefix_append p b)

theorem findSubAux_shift (pat : Str) :
    ∀ (t : Str) (i : Nat), findSubAux pat t i = (findSubAux pat t 0).map (fun j => i + j) := by
  intro t
  induction t with
  | nil =>
    intro i
    simp only [findSubAux]
    split <;> simp
  | cons x rest ih =>
    intro i
    simp only [findSubAux]
    split
    · simp
    · rw [ih (i + 1), ih 1, Option.map_map]
      congr 1
      funext j
      simp only [Function.comp_apply]
      omega

theorem findSubAux_append_notin (c : Char) (pr : Str) :
    ∀ (a b : Str) (i : Nat), c ∉ a →
      findSubAux (c :: pr) (a ++ b) i = findSubAux (c :: pr) b (i + a.length) := by
  intro a
  induction a with
  | nil => intro b i _; simp
  | cons x a' ih =>
    intro b i hna
    have hxc : ¬ c = x := fun h => hna (h ▸ List.mem_cons_self x a')
    rw [List.cons_append]
    simp only [findSubAux, isPrefixOf_cons_neg hxc, Bool.false_eq_true, if_false]
    rw [ih b (i + 1) (fun hm => hna (List.mem_cons_of_mem _ hm))]
    congr 1
    simp only [List.length_cons]
    omega

theorem findSub_append_notin {c : Char} {pr a : Str} (b : Str) (h : c ∉ a) :
    findSub (a ++ b) (c :: pr) = (findSub b (c :: pr)).map (fun j => a.length + j) := by
  unfold findSub
  rw [findSubAux_append_notin c pr a b 0 h, findSubAux_shift]
  congr 1
  funext j
  omega

theorem findSub_self_append (pat b : Str) : findSub (pat ++ b) pat = some 0 := by
  cases pat with
  | nil =>
    cases b <;> simp [findSub, findSubAux, List.isPrefixOf]
  | cons c pr =>
    rw [List.cons_append]
    simp only [findSub, findSubAux]
    have hp : (c :: pr).isPrefixOf (c :: (pr ++ b)) = true := isPrefixOf_self_append (c :: pr) b
    rw [hp]
    simp

theorem findSubAux_none_of_notin (c : Char) (pr : Str) :
    ∀ (t : Str) (i : Nat), c ∉ t → findSubAux (c :: pr) t i = none := by
  intro t
  induction t with
  | nil => intro i _; rfl
  | cons x rest ih =>
    intro i hn
    have hxc : ¬ c = x := fun h => hn (h ▸ List.mem_cons_self x rest)
    simp only [findSubAux, isPrefixOf_cons_neg hxc, Bool.false_eq_true, if_false]
    exact ih (i + 1) (fun hm => hn (List.mem_cons_of_mem _ hm))

theorem findSub_none_of_notin {c : Char} {pr t : Str} (h : c ∉ t) :
    findSub t (c :: pr) = none :=
  findSubAux_none_of_notin c pr t 0 h

theorem replaceAllAux_skip (old new : Str) :
    ∀ (x b : Str), replaceAllAux old new (x ++ b) x.length = replaceAllAux old new b 0 := by
  intro x
  induction x with
  | nil => intro b; rfl
  | cons c x' ih =>
    intro b
    rw [List.cons_append]
    show replaceAllAux old new (c :: (x' ++ b)) (x'.length + 1) = _
    simp only [replaceAllAux]
    exact ih b

theorem replaceAllAux_append_notin {c : Char} (pr new : Str) :
    ∀ (a b : Str), c ∉ a →
      replaceAllAux (c :: pr) new (a ++ b) 0 = a ++ replaceAllAux (c :: pr) new b 0 := by
  intro a
  induction a with
  | nil => intro b _; rfl
  | cons x a' ih =>
    intro b hna
    have hxc : ¬ c = x := fun h => hna (h ▸ List.mem_cons_self x a')
    rw [List.cons_append]
    simp only [replaceAllAux, isPrefixOf_cons_neg hxc, Bool.false_eq_true, if_false]
    rw [ih b (fun hm => hna (List.mem_cons_of_mem _ hm))]
    rfl

theorem replaceAllAux_head_match {c : Char} (pr new b : Str) :
    replaceAllAux (c :: pr) new ((c :: pr) ++ b) 0
      = new ++ replaceAllAux (c :: pr) new b 0 := by
  rw [List.cons_append]
  have hp : (c :: pr).isPrefixOf (c :: (pr ++ b)) = true := by
    rw [← List.cons_append]
    exact isPrefixOf_self_append (c :: pr) b
  simp only [replaceAllAux, hp, if_true]
  congr 1
  have hl : (c :: pr).length - 1 = pr.length := by simp
  rw [hl]
  exact replaceAllAux_skip (c :: pr) new pr b

theorem replaceAllAux_notin {c : Char} (pr new : Str) :
    ∀ (s : Str), c ∉ s → replaceAllAux (c :: pr) new s 0 = s := by
  intro s
  induction s with
  | nil => intro _; rfl
  | cons x s' ih =>
    intro hn
    have hxc : ¬ c = x := fun h => hn (h ▸ List.mem_cons_self x s')
    simp only [replaceAllAux, isPrefixOf_cons_neg hxc, Bool.false_eq_true, if_false]
    rw [ih (fun hm => hn (List.mem_cons_of_mem _ hm))]

/- Stepping equations for the scanners, used to evaluate them symbolically. -/

theorem code_matchesAux_step {fuel : Nat} {s : Str} {i j : Nat}
    (h1 : findSub s (strOf "```") = some i)
    (h2 : findSub (List.drop (i + 3) s) (strOf "```") = some j) :
    code_matchesAux (fuel + 1) s
      = (List.take (j + 6) (List.drop i s)) :: code_matchesAux fuel (List.drop (i + j + 6) s) := by
  simp only [code_matchesAux, h1, h2]

theorem code_matchesAux_nil {fuel : Nat} {s : Str} (h : findSub s (strOf "```") = none) :
    code_matchesAux fuel s = [] := by
  cases fuel with
  | zero => rfl
  | succ n => simp only [code_matchesAux, h]

theorem line_match_none_of_get {t : Str} {p : Nat} (h : ¬ t.get? p = some '|') :
    line_match t p = none := by
  unfold line_match
  rw [if_neg h]

theorem line_match_eval {t : Str} {p k : Nat} (hp : t.get? p = some '|')
    (hk : findSub (List.drop p t) (strOf "\n") = some k) (h3 : 3 ≤ k)
    (hpk : t.get? (p + k - 1) = some '|') :
    line_match t p = some (p + k + 1) := by
  unfold line_match
  rw [if_pos hp, hk]
  simp only
  rw [if_pos ⟨h3, hpk⟩]

theorem extend_lines_none {t : Str} {fuel q : Nat} (h : line_match t q = none) :
    extend_lines t fuel q = q := by
  cases fuel with
  | zero => rfl
  | succ n => simp only [extend_lines, h]

theorem table_scan_stop {t : Str} {fuel p : Nat} (hp : ¬ p < t.length) :
    table_scan t fuel p = [] := by
  cases fuel with
  | zero => rfl
  | succ n =>
    simp only [table_scan]
    rw [if_neg hp]

theorem table_scan_skip1 {t : Str} {fuel p : Nat} (hp : p < t.length)
    (h : line_match t p = none) :
    table_scan t (fuel + 1) p = table_scan t fuel (p + 1) := by
  simp only [table_scan, h]
  rw [if_pos hp]

theorem table_scan_match {t : Str} {fuel p q : Nat} (hp : p < t.length)
    (h : line_match t p = some q) :
    table_scan t (fuel + 1) p
      = (List.take (extend_lines t (t.length + 1) q - p) (List.drop p t))
          :: table_scan t fuel (extend_lines t (t.length + 1) q) := by
  simp only [table_scan, h]
  rw [if_pos hp]

theorem table_scan_skipN (t : Str) :
    ∀ (k fuel p : Nat), (∀ q, q < k → line_match t (p + q) = none) →
      table_scan t (fuel + k) p = table_scan t fuel (p + k) := by
  intro k
  induction k with
  | zero => intro fuel p _; rfl
  | succ m ih =>
    intro fuel p h
    by_cases hp : p < t.length
    · have h0 : line_match t p = none := by
        have := h 0 (by omega)
        simpa using this
      have hstep : table_scan t ((fuel + m) + 1) p = table_scan t (fuel + m) (p + 1) :=
        table_scan_skip1 hp h0
      have harr : fuel + (m + 1) = (fuel + m) + 1 := by omega
      rw [harr, hstep]
      have := ih fuel (p + 1) (fun q hq => by
        have := h (q + 1) (by omega)
        have harr2 : p + (q + 1) = p + 1 + q := by omega
        rwa [harr2] at this)
      rw [this]
      congr 1
      omega
    · rw [table_scan_stop hp, table_scan_stop (by omega : ¬ p + (m + 1) < t.length)]

theorem isPrefixOf_false_of_get {q s : Str} (m : Nat)
    (hmq : m < q.length) (hne : ¬ q.get? m = s.get? m) : q.isPrefixOf s = false := by
  rw [Bool.eq_false_iff]
  intro h
  obtain ⟨w, rfl⟩ := List.isPrefixOf_iff_prefix.mp h
  exact hne (List.get?_append hmq).symm

/-- The head of a pipe-free string is not a pipe. -/
theorem get_zero_ne_pipe {s : Str} (h : '|' ∉ s) : ¬ s.get? 0 = some '|' := by
  cases s with
  | nil => intro hc; cases hc
  | cons c rest =>
    intro hc
    have : c = '|' := Option.some.inj hc
    exact h (this ▸ List.mem_cons_self c rest)

/-- The code-block scanner on a text with exactly one fenced block and no
other backticks finds exactly that block. -/
theorem code_matches_single (a inner z : Str) (ha : '`' ∉ a) (hi : '`' ∉ inner)
    (hz : '`' ∉ z) :
    code_matches (a ++ (strOf "```" ++ (inner ++ (strOf "```" ++ z))))
      = [strOf "```" ++ inner ++ strOf "```"] := by
  have hf : strOf "```" = '`' :: '`' :: '`' :: ([] : Str) := rfl
  have hfind1 : findSub (a ++ (strOf "```" ++ (inner ++ (strOf "```" ++ z)))) (strOf "```")
      = some a.length := by
    rw [hf, findSub_append_notin _ ha, findSub_self_append]
    simp
  have hdrop1 : List.drop (a.length + 3) (a ++ (strOf "```" ++ (inner ++ (strOf "```" ++ z))))
      = inner ++ (strOf "```" ++ z) := by
    rw [List.drop_append, hf]
    rfl
  have hfind2 : findSub (List.drop (a.length + 3)
        (a ++ (strOf "```" ++ (inner ++ (strOf "```" ++ z))))) (strOf "```")
      = some inner.length := by
    rw [hdrop1, hf, findSub_append_notin _ hi, findSub_self_append]
    simp
  have hre : strOf "```" ++ (inner ++ (strOf "```" ++ z))
      = (strOf "```" ++ inner ++ strOf "```") ++ z := by
    simp [List.append_assoc]
  have hlen : inner.length + 6 = (strOf "```" ++ inner ++ strOf "```").length := by
    simp only [hf, List.append_assoc, List.length_append, List.length_cons, List.length_nil]
    omega
  unfold code_matches
  rw [code_matchesAux_step hfind1 hfind2]
  have hhead : List.take (inner.length + 6)
      (List.drop a.length (a ++ (strOf "```" ++ (inner ++ (strOf "```" ++ z)))))
      = strOf "```" ++ inner ++ strOf "```" := by
    rw [List.drop_left, hre, hlen, List.take_left]
  have htail : List.drop (a.length + inner.length + 6)
      (a ++ (strOf "```" ++ (inner ++ (strOf "```" ++ z)))) = z := by
    have harr : a.length + inner.length + 6 = a.length + (inner.length + 6) := by omega
    rw [harr, List.drop_append, hre, hlen, List.drop_left]
  rw [hhead, htail]
  have hznone : findSub z (strOf "```") = none := by
    rw [hf]
    exact findSub_none_of_notin hz
  rw [code_matchesAux_nil hznone]

/-- `replaceFirst` on a text whose left part cannot contain the needle's head
replaces the unique block occurrence at the seam. -/
theorem replaceFirst_block {c : Char} (a pr z ph : Str) (ha : c ∉ a) :
    replaceFirst (a ++ ((c :: pr) ++ z)) (c :: pr) ph = (a ++ ph) ++ z := by
  unfold replaceFirst
  have hfind : findSub (a ++ ((c :: pr) ++ z)) (c :: pr) = some a.length := by
    rw [findSub_append_notin _ ha, findSub_self_append]
    simp
  simp only [hfind]
  have htake : List.take a.length (a ++ ((c :: pr) ++ z)) = a := List.take_left a _
  have hdrop : List.drop (a.length + (c :: pr).length) (a ++ ((c :: pr) ++ z)) = z := by
    rw [List.drop_append]
    exact List.drop_left _ _
  rw [htake, hdrop]

/-- The table scanner on a text with exactly one single-line table and no
other pipes finds exactly that table line. -/
theorem table_matches_single (A mid z : Str) (hA : '|' ∉ A) (hz : '|' ∉ z)
    (hmn : '\n' ∉ mid) (hne : ¬ mid = []) :
    table_matches (A ++ ('|' :: (mid ++ ('|' :: '\n' :: z))))
      = ['|' :: (mid ++ ('|' :: '\n' :: []))] := by
  have hlenT : (A ++ ('|' :: (mid ++ ('|' :: '\n' :: z)))).length
      = A.length + mid.length + 3 + z.length := by
    simp only [List.length_append, List.length_cons]
    omega
  have hT2 : A ++ ('|' :: (mid ++ ('|' :: '\n' :: z)))
      = (A ++ ('|' :: (mid ++ ('|' :: '\n' :: [])))) ++ z := by
    simp [List.append_assoc]
  have hlen2 : (A ++ ('|' :: (mid ++ ('|' :: '\n' :: [])))).length
      = A.length + (mid.length + 2) + 1 := by
    simp only [List.length_append, List.length_cons, List.length_nil]
    omega
  have hskip0 : ∀ q, q < A.length →
      line_match (A ++ ('|' :: (mid ++ ('|' :: '\n' :: z)))) (0 + q) = none := by
    intro q hq
    apply line_match_none_of_get
    intro hc
    rw [Nat.zero_add] at hc
    rw [List.get?_append hq] at hc
    exact hA (List.get?_mem hc)
  have hget : (A ++ ('|' :: (mid ++ ('|' :: '\n' :: z)))).get? A.length = some '|' := by
    rw [List.get?_append_right (Nat.le_refl A.length)]
    simp
  have hfnl : findSub (List.drop A.length (A ++ ('|' :: (mid ++ ('|' :: '\n' :: z)))))
      (strOf "\n") = some (mid.length + 2) := by
    rw [List.drop_left]
    have hXre : '|' :: (mid ++ ('|' :: '\n' :: z))
        = (('|' :: mid) ++ ('|' :: [])) ++ ('\n' :: z) := by
      simp
    have hnl : strOf "\n" = '\n' :: ([] : Str) := rfl
    have hnotnl : '\n' ∉ ('|' :: mid) ++ ('|' :: []) := by
      intro hmem
      rcases List.mem_append.mp hmem with h | h
      · rcases List.mem_cons.mp h with h | h
        · exact absurd h (by decide)
        · exact hmn h
      · rcases List.mem_cons.mp h with h | h
        · exact absurd h (by decide)
        · exact absurd h (List.not_mem_nil _)
    rw [hXre, hnl, findSub_append_notin _ hnotnl]
    have hsz : ('\n' :: z : Str) = ('\n' :: []) ++ z := by simp
    rw [hsz, findSub_self_append]
    simp only [Option.map_some', List.length_append, List.length_cons, List.length_nil]
  have h3le : 3 ≤ mid.length + 2 := by
    have := List.length_pos.mpr hne
    omega
  have hpk : (A ++ ('|' :: (mid ++ ('|' :: '\n' :: z)))).get?
      (A.length + (mid.length + 2) - 1) = some '|' := by
    have harr : A.length + (mid.length + 2) - 1 = A.length + (mid.length + 1) := by omega
    rw [harr, List.get?_append_right (by omega)]
    have harr2 : A.length + (mid.length + 1) - A.length = mid.length + 1 := by omega
    rw [harr2]
    rw [List.get?_cons_succ]
    rw [List.get?_append_right (Nat.le_refl mid.length)]
    simp
  have hlm : line_match (A ++ ('|' :: (mid ++ ('|' :: '\n' :: z)))) A.length
      = some (A.length + (mid.length + 2) + 1) := line_match_eval hget hfnl h3le hpk
  have hgetq : ¬ (A ++ ('|' :: (mid ++ ('|' :: '\n' :: z)))).get?
      (A.length + (mid.length + 2) + 1) = some '|' := by
    intro hc
    rw [hT2] at hc
    rw [List.get?_append_right (by omega)] at hc
    rw [show A.length + (mid.length + 2) + 1
        - (A ++ ('|' :: (mid ++ ('|' :: '\n' :: [])))).length = 0 from by rw [hlen2]; omega] at hc
    exact get_zero_ne_pipe hz hc
  have hlmq : line_match (A ++ ('|' :: (mid ++ ('|' :: '\n' :: z))))
      (A.length + (mid.length + 2) + 1) = none := line_match_none_of_get hgetq
  have hext : extend_lines (A ++ ('|' :: (mid ++ ('|' :: '\n' :: z))))
      ((A ++ ('|' :: (mid ++ ('|' :: '\n' :: z)))).length + 1)
      (A.length + (mid.length + 2) + 1) = A.length + (mid.length + 2) + 1 :=
    extend_lines_none hlmq
  have hpA : A.length < (A ++ ('|' :: (mid ++ ('|' :: '\n' :: z)))).length := by omega
  unfold table_matches
  rw [show (A ++ ('|' :: (mid ++ ('|' :: '\n' :: z)))).length + 1
      = ((A ++ ('|' :: (mid ++ ('|' :: '\n' :: z)))).length + 1 - A.length) + A.length
      from by omega]
  rw [table_scan_skipN _ A.length _ 0 hskip0]
  rw [Nat.zero_add]
  rw [show (A ++ ('|' :: (mid ++ ('|' :: '\n' :: z)))).length + 1 - A.length
      = ((A ++ ('|' :: (mid ++ ('|' :: '\n' :: z)))).length - A.length) + 1 from by omega]
  rw [table_scan_match hpA hlm]
  rw [hext]
  have hhead : List.take (A.length + (mid.length + 2) + 1 - A.length)
      (List.drop A.length (A ++ ('|' :: (mid ++ ('|' :: '\n' :: z)))))
      = '|' :: (mid ++ ('|' :: '\n' :: [])) := by
    rw [List.drop_left]
    rw [show A.length + (mid.length + 2) + 1 - A.length
        = ('|' :: (mid ++ ('|' :: '\n' :: []))).length from by
      simp only [List.length_cons, List.length_append, List.length_nil]
      omega]
    rw [show ('|' :: (mid ++ ('|' :: '\n' :: z)) : Str)
        = ('|' :: (mid ++ ('|' :: '\n' :: []))) ++ z from by simp]
    exact List.take_left _ _
  have htail : table_scan (A ++ ('|' :: (mid ++ ('|' :: '\n' :: z))))
      ((A ++ ('|' :: (mid ++ ('|' :: '\n' :: z)))).length - A.length)
      (A.length + (mid.length + 2) + 1) = [] := by
    have hq0 : ∀ j, j < z.length →
        line_match (A ++ ('|' :: (mid ++ ('|' :: '\n' :: z))))
          (A.length + (mid.length + 2) + 1 + j) = none := by
      intro j hj
      apply line_match_none_of_get
      intro hc
      rw [hT2] at hc
      rw [List.get?_append_right (by omega)] at hc
      rw [show A.length + (mid.length + 2) + 1 + j
          - (A ++ ('|' :: (mid ++ ('|' :: '\n' :: [])))).length = j from by
        rw [hlen2]; omega] at hc
      exact hz (List.get?_mem hc)
    rw [show (A ++ ('|' :: (mid ++ ('|' :: '\n' :: z)))).length - A.length
        = (mid.length + 3) + z.length from by omega]
    rw [table_scan_skipN _ z.length (mid.length + 3) _ hq0]
    exact table_scan_stop (by omega)
  rw [hhead, htail]

theorem notin_append {c : Char} {a b : Str} (ha : c ∉ a) (hb : c ∉ b) : c ∉ a ++ b := by
  intro h
  rcases List.mem_append.mp h with h | h
  · exact ha h
  · exact hb h

theorem family_protect (p1 p2 p3 inner mid : Str)
    (hb1 : '`' ∉ p1) (hb2 : '`' ∉ p2) (hb3 : '`' ∉ p3) (hbi : '`' ∉ inner) (hbm : '`' ∉ mid)
    (hpp1 : '|' ∉ p1) (hpp2 : '|' ∉ p2) (hpp3 : '|' ∉ p3)
    (hmn : '\n' ∉ mid) (hne : ¬ mid = []) :
    protect_content (p1 ++ (strOf "```" ++ inner ++ strOf "```") ++ p2
        ++ (strOf "|" ++ mid ++ strOf "|\n") ++ p3)
      = (p1 ++ strOf "__CODE_BLOCK_0__" ++ p2 ++ strOf "__TABLE_0__" ++ p3,
         [(strOf "__CODE_BLOCK_0__", strOf "```" ++ inner ++ strOf "```"),
          (strOf "__TABLE_0__", strOf "|" ++ mid ++ strOf "|\n")]) := by
  have hreT : p1 ++ (strOf "```" ++ inner ++ strOf "```") ++ p2
        ++ (strOf "|" ++ mid ++ strOf "|\n") ++ p3
      = p1 ++ (strOf "```" ++ (inner ++ (strOf "```"
          ++ (p2 ++ ((strOf "|" ++ mid ++ strOf "|\n") ++ p3))))) := by
    simp [List.append_assoc]
  have hbz : '`' ∉ p2 ++ ((strOf "|" ++ mid ++ strOf "|\n") ++ p3) :=
    notin_append hb2 (notin_append (notin_append (notin_append (by decide) hbm) (by decide)) hb3)
  have hcm : code_matches (p1 ++ (strOf "```" ++ inner ++ strOf "```") ++ p2
        ++ (strOf "|" ++ mid ++ strOf "|\n") ++ p3)
      = [strOf "```" ++ inner ++ strOf "```"] := by
    rw [hreT]
    exact code_matches_single p1 inner _ hb1 hbi hbz
  have hreT2 : p1 ++ (strOf "```" ++ inner ++ strOf "```") ++ p2
        ++ (strOf "|" ++ mid ++ strOf "|\n") ++ p3
      = p1 ++ (('`' :: (('`' :: '`' :: []) ++ (inner ++ strOf "```")))
          ++ (p2 ++ ((strOf "|" ++ mid ++ strOf "|\n") ++ p3))) := by
    simp [show strOf "```" = ['`', '`', '`'] from rfl, List.append_assoc]
  have hcons_code : strOf "```" ++ inner ++ strOf "```"
      = '`' :: (('`' :: '`' :: []) ++ (inner ++ strOf "```")) := by
    simp [show strOf "```" = ['`', '`', '`'] from rfl, List.append_assoc]
  have hrf1 : replaceFirst (p1 ++ (strOf "```" ++ inner ++ strOf "```") ++ p2
        ++ (strOf "|" ++ mid ++ strOf "|\n") ++ p3)
        (strOf "```" ++ inner ++ strOf "```") (strOf "__CODE_BLOCK_0__")
      = (p1 ++ strOf "__CODE_BLOCK_0__")
          ++ (p2 ++ ((strOf "|" ++ mid ++ strOf "|\n") ++ p3)) := by
    rw [hreT2, hcons_code]
    exact replaceFirst_block p1 _ _ _ hb1
  have hApipe : '|' ∉ (p1 ++ strOf "__CODE_BLOCK_0__") ++ p2 :=
    notin_append (notin_append hpp1 (by decide)) hpp2
  have hreT3 : (p1 ++ strOf "__CODE_BLOCK_0__")
        ++ (p2 ++ ((strOf "|" ++ mid ++ strOf "|\n") ++ p3))
      = ((p1 ++ strOf "__CODE_BLOCK_0__") ++ p2) ++ ('|' :: (mid ++ ('|' :: '\n' :: p3))) := by
    simp [show strOf "|" = ['|'] from rfl, show strOf "|\n" = ['|', '\n'] from rfl,
      List.append_assoc]
  have htm : table_matches ((p1 ++ strOf "__CODE_BLOCK_0__")
        ++ (p2 ++ ((strOf "|" ++ mid ++ strOf "|\n") ++ p3)))
      = ['|' :: (mid ++ ('|' :: '\n' :: []))] := by
    rw [hreT3]
    exact table_matches_single _ mid p3 hApipe hpp3 hmn hne
  have hreT4 : (p1 ++ strOf "__CODE_BLOCK_0__")
        ++ (p2 ++ ((strOf "|" ++ mid ++ strOf "|\n") ++ p3))
      = ((p1 ++ strOf "__CODE_BLOCK_0__") ++ p2)
          ++ (('|' :: (mid ++ ('|' :: '\n' :: []))) ++ p3) := by
    simp [show strOf "|" = ['|'] from rfl, show strOf "|\n" = ['|', '\n'] from rfl,
      List.append_assoc]
  have hrf2 : replaceFirst ((p1 ++ strOf "__CODE_BLOCK_0__")
        ++ (p2 ++ ((strOf "|" ++ mid ++ strOf "|\n") ++ p3)))
        ('|' :: (mid ++ ('|' :: '\n' :: []))) (strOf "__TABLE_0__")
      = (((p1 ++ strOf "__CODE_BLOCK_0__") ++ p2) ++ strOf "__TABLE_0__") ++ p3 := by
    rw [hreT4]
    exact replaceFirst_block _ _ _ _ hApipe
  have hpc0 : placeholderCode 0 = strOf "__CODE_BLOCK_0__" := rfl
  have hpt0 : placeholderTable 0 = strOf "__TABLE_0__" := rfl
  simp only [protect_content, hcm, applyMatches, hpc0, hrf1, htm, hpt0, hrf2]
  simp only [Prod.mk.injEq]
  constructor
  · simp [List.append_assoc]
  · simp [show strOf "|" = ['|'] from rfl, show strOf "|\n" = ['|', '\n'] from rfl,
      List.append_assoc]

/-- One scan step of `replaceAllAux` at a position where the pattern does not
match: the head character is kept and the scan moves on. -/
theorem replaceAllAux_step_no (old new : Str) {c : Char} {rest : Str}
    (h : old.isPrefixOf (c :: rest) = false) :
    replaceAllAux old new (c :: rest) 0 = c :: replaceAllAux old new rest 0 := by
  simp only [replaceAllAux, h, Bool.false_eq_true, if_false]

/-- Replacing the code placeholder inside `__TABLE_0__ ++ p3` changes nothing
when `p3` is underscore-free: the code placeholder is not a substring. -/
theorem replaceAll_skips_table_ph (code p3 : Str) (hu : '_' ∉ p3) :
    replaceAllAux (strOf "__CODE_BLOCK_0__") code (strOf "__TABLE_0__" ++ p3) 0
      = strOf "__TABLE_0__" ++ p3 := by
  have hsub9 : (strOf "CODE_BLOCK_0__").isPrefixOf p3 = false :=
    isPrefixOf_false_of_mem_notin (by decide) hu
  have hsub10 : (strOf "_CODE_BLOCK_0__").isPrefixOf p3 = false :=
    isPrefixOf_false_of_mem_notin (by decide) hu
  have h0 : (strOf "__CODE_BLOCK_0__").isPrefixOf
      ('_' :: '_' :: 'T' :: 'A' :: 'B' :: 'L' :: 'E' :: '_' :: '0' :: '_' :: '_' :: p3)
      = false := isPrefixOf_false_of_get 2 (by decide)
        (by show ¬ (some 'C' : Option Char) = some 'T'; decide)
  have h1 : (strOf "__CODE_BLOCK_0__").isPrefixOf
      ('_' :: 'T' :: 'A' :: 'B' :: 'L' :: 'E' :: '_' :: '0' :: '_' :: '_' :: p3)
      = false := isPrefixOf_false_of_get 1 (by decide)
        (by show ¬ (some '_' : Option Char) = some 'T'; decide)
  have h2 : (strOf "__CODE_BLOCK_0__").isPrefixOf
      ('T' :: 'A' :: 'B' :: 'L' :: 'E' :: '_' :: '0' :: '_' :: '_' :: p3)
      = false := isPrefixOf_false_of_get 0 (by decide)
        (by show ¬ (some '_' : Option Char) = some 'T'; decide)
  have h3 : (strOf "__CODE_BLOCK_0__").isPrefixOf
      ('A' :: 'B' :: 'L' :: 'E' :: '_' :: '0' :: '_' :: '_' :: p3)
      = false := isPrefixOf_false_of_get 0 (by decide)
        (by show ¬ (some '_' : Option Char) = some 'A'; decide)
  have h4 : (strOf "__CODE_BLOCK_0__").isPrefixOf
      ('B' :: 'L' :: 'E' :: '_' :: '0' :: '_' :: '_' :: p3)
      = false := isPrefixOf_false_of_get 0 (by decide)
        (by show ¬ (some '_' : Option Char) = some 'B'; decide)
  have h5 : (strOf "__CODE_BLOCK_0__").isPrefixOf
      ('L' :: 'E' :: '_' :: '0' :: '_' :: '_' :: p3)
      = false := isPrefixOf_false_of_get 0 (by decide)
        (by show ¬ (some '_' : Option Char) = some 'L'; decide)
  have h6 : (strOf "__CODE_BLOCK_0__").isPrefixOf
      ('E' :: '_' :: '0' :: '_' :: '_' :: p3)
      = false := isPrefixOf_false_of_get 0 (by decide)
        (by show ¬ (some '_' : Option Char) = some 'E'; decide)
  have h7 : (strOf "__CODE_BLOCK_0__").isPrefixOf
      ('_' :: '0' :: '_' :: '_' :: p3)
      = false := isPrefixOf_false_of_get 1 (by decide)
        (by show ¬ (some '_' : Option Char) = some '0'; decide)
  have h8 : (strOf "__CODE_BLOCK_0__").isPrefixOf
      ('0' :: '_' :: '_' :: p3)
      = false := isPrefixOf_false_of_get 0 (by decide)
        (by show ¬ (some '_' : Option Char) = some '0'; decide)
  have h9 : (strOf "__CODE_BLOCK_0__").isPrefixOf ('_' :: '_' :: p3) = false := by
    show ('_' :: '_' :: strOf "CODE_BLOCK_0__").isPrefixOf ('_' :: '_' :: p3) = false
    simp +decide [List.isPrefixOf, hsub9]
  have h10 : (strOf "__CODE_BLOCK_0__").isPrefixOf ('_' :: p3) = false := by
    show ('_' :: strOf "_CODE_BLOCK_0__").isPrefixOf ('_' :: p3) = false
    simp +decide [List.isPrefixOf, hsub10]
  have hT : strOf "__TABLE_0__" ++ p3
      = '_' :: '_' :: 'T' :: 'A' :: 'B' :: 'L' :: 'E' :: '_' :: '0' :: '_' :: '_' :: p3 := by
    simp [show strOf "__TABLE_0__" = ['_', '_', 'T', 'A', 'B', 'L', 'E', '_', '0', '_', '_']
      from rfl]
  have hrest : replaceAllAux (strOf "__CODE_BLOCK_0__") code p3 0 = p3 := by
    show replaceAllAux ('_' :: strOf "_CODE_BLOCK_0__") code p3 0 = p3
    exact replaceAllAux_notin _ _ p3 hu
  rw [hT]
  rw [replaceAllAux_step_no _ _ h0, replaceAllAux_step_no _ _ h1, replaceAllAux_step_no _ _ h2,
      replaceAllAux_step_no _ _ h3, replaceAllAux_step_no _ _ h4, replaceAllAux_step_no _ _ h5,
      replaceAllAux_step_no _ _ h6, replaceAllAux_step_no _ _ h7, replaceAllAux_step_no _ _ h8,
      replaceAllAux_step_no _ _ h9, replaceAllAux_step_no _ _ h10, hrest]

/-- Restoring the two placeholders of the one-code-block one-table family puts
the original blocks back, provided the surrounding plain text and the code
replacement carry no underscore (so neither placeholder occurs by accident). -/
theorem family_restore (p1 p2 p3 code tbl : Str)
    (hu1 : '_' ∉ p1) (hu2 : '_' ∉ p2) (hu3 : '_' ∉ p3) (hcode : '_' ∉ code) :
    restore_content (p1 ++ strOf "__CODE_BLOCK_0__" ++ p2 ++ strOf "__TABLE_0__" ++ p3)
        [(strOf "__CODE_BLOCK_0__", code), (strOf "__TABLE_0__", tbl)]
      = p1 ++ code ++ p2 ++ tbl ++ p3 := by
  have hcph : strOf "__CODE_BLOCK_0__" = '_' :: strOf "_CODE_BLOCK_0__" := rfl
  have htph : strOf "__TABLE_0__" = '_' :: strOf "_TABLE_0__" := rfl
  have hre1 : p1 ++ strOf "__CODE_BLOCK_0__" ++ p2 ++ strOf "__TABLE_0__" ++ p3
      = p1 ++ (strOf "__CODE_BLOCK_0__" ++ (p2 ++ (strOf "__TABLE_0__" ++ p3))) := by
    simp [List.append_assoc]
  have pass1 : replaceAllAux (strOf "__CODE_BLOCK_0__") code
        (p1 ++ strOf "__CODE_BLOCK_0__" ++ p2 ++ strOf "__TABLE_0__" ++ p3) 0
      = p1 ++ (code ++ (p2 ++ (strOf "__TABLE_0__" ++ p3))) := by
    rw [hre1, hcph]
    rw [replaceAllAux_append_notin _ _ p1 _ hu1]
    rw [replaceAllAux_head_match]
    rw [replaceAllAux_append_notin _ _ p2 _ hu2]
    rw [← hcph]
    rw [replaceAll_skips_table_ph code p3 hu3]
  have pass2 : replaceAllAux (strOf "__TABLE_0__") tbl
        (p1 ++ (code ++ (p2 ++ (strOf "__TABLE_0__" ++ p3)))) 0
      = p1 ++ (code ++ (p2 ++ (tbl ++ p3))) := by
    rw [htph]
    rw [replaceAllAux_append_notin _ _ p1 _ hu1]
    rw [replaceAllAux_append_notin _ _ code _ hcode]
    rw [replaceAllAux_append_notin _ _ p2 _ hu2]
    rw [replaceAllAux_head_match]
    rw [replaceAllAux_notin _ _ p3 hu3]
  show replaceAllAux (strOf "__TABLE_0__") tbl
      (replaceAllAux (strOf "__CODE_BLOCK_0__") code
        (p1 ++ strOf "__CODE_BLOCK_0__" ++ p2 ++ strOf "__TABLE_0__" ++ p3) 0) 0
    = p1 ++ code ++ p2 ++ tbl ++ p3
  rw [pass1, pass2]
  simp [List.append_assoc]

/-- Claim C4 (amended): protect-then-restore is the identity on texts with one
balanced fenced code block and one well-formed single-line table, provided no
code block lies inside a table and no placeholder-shaped token occurs in the
input; proved for every text of the form
plain1 ++ fenced code ++ plain2 ++ single-line table ++ plain3
whose plain parts carry no backtick, pipe or underscore, whose code interior
carries no backtick or underscore, and whose table interior carries no
backtick or newline and is non-empty.  (The unamended claim is refuted by
`protect_restore_table_code_counterexample`: a code block nested inside a
table is protected as a code block first, and the restorer, iterating the map
in insertion order, re-expands it before the table placeholder is mapped back,
leaving the code placeholder embedded in the restored table forever.) -/
theorem protect_restore_roundtrip_family (p1 p2 p3 inner mid : Str)
    (hb1 : '`' ∉ p1) (hb2 : '`' ∉ p2) (hb3 : '`' ∉ p3) (hbi : '`' ∉ inner) (hbm : '`' ∉ mid)
    (hpp1 : '|' ∉ p1) (hpp2 : '|' ∉ p2) (hpp3 : '|' ∉ p3)
    (hu1 : '_' ∉ p1) (hu2 : '_' ∉ p2) (hu3 : '_' ∉ p3) (hui : '_' ∉ inner)
    (hmn : '\n' ∉ mid) (hne : ¬ mid = []) :
    restore_content
        (protect_content (p1 ++ (strOf "```" ++ inner ++ strOf "```") ++ p2
            ++ (strOf "|" ++ mid ++ strOf "|\n") ++ p3)).1
        (protect_content (p1 ++ (strOf "```" ++ inner ++ strOf "```") ++ p2
            ++ (strOf "|" ++ mid ++ strOf "|\n") ++ p3)).2
      = p1 ++ (strOf "```" ++ inner ++ strOf "```") ++ p2
            ++ (strOf "|" ++ mid ++ strOf "|\n") ++ p3 := by
  rw [family_protect p1 p2 p3 inner mid hb1 hb2 hb3 hbi hbm hpp1 hpp2 hpp3 hmn hne]
  have hcode : '_' ∉ strOf "```" ++ inner ++ strOf "```" :=
    notin_append (notin_append (by decide) hui) (by decide)
  exact family_restore p1 p2 p3
    (strOf "```" ++ inner ++ strOf "```") (strOf "|" ++ mid ++ strOf "|\n")
    hu1 hu2 hu3 hcode

/-- Witness for C4: the round-trip theorem applied at a concrete member of the
family. -/
theorem protect_restore_roundtrip_family_witness :
    restore_content
        (protect_content (strOf "intro " ++ (strOf "```" ++ strOf "code hello" ++ strOf "```")
            ++ strOf "\nmiddle\n" ++ (strOf "|" ++ strOf "a|b" ++ strOf "|\n")
            ++ strOf "end")).1
        (protect_content (strOf "intro " ++ (strOf "```" ++ strOf "code hello" ++ strOf "```")
            ++ strOf "\nmiddle\n" ++ (strOf "|" ++ strOf "a|b" ++ strOf "|\n")
            ++ strOf "end")).2
      = strOf "intro " ++ (strOf "```" ++ strOf "code hello" ++ strOf "```")
            ++ strOf "\nmiddle\n" ++ (strOf "|" ++ strOf "a|b" ++ strOf "|\n")
            ++ strOf "end" :=
  protect_restore_roundtrip_family (strOf "intro ") (strOf "\nmiddle\n") (strOf "end")
    (strOf "code hello") (strOf "a|b")
    (by decide) (by decide) (by decide) (by decide) (by decide)
    (by decide) (by decide) (by decide)
    (by decide) (by decide) (by decide) (by decide)
    (by decide) (by decide)
